import Mathlib

/-!
Verification of the candidate-verification and coverage-measurement harness
(COMPSCI520-EXERCISE1).  The Python sources are shallowly embedded over
`List Char` (Python strings) and `ℚ` (Python floats used only through exact
arithmetic and order comparisons).  The embedded functions are:

* `cleanLlmResponse`  — `CoverageAnalyzer.clean_llm_response`
  (src/run_coverage_tests.py 36-68; the same code appears verbatim as
  `clean_llm_response` in src/humaneval_problems/problem_007/run_test_llm_response3.py
  10-51), split as in the source into the fence-stripping phase `fenceStrip`
  and the indentation-fixing phase `indentFix`.
* `extractCode`       — `LLMEvaluator.extract_code` (src/evaluate_humaneval.py 142-159).
* `interpretCoverage` — `CoverageAnalyzer.interpret_coverage` (src/run_coverage_tests.py 441-459).
* `branchCoveragePct` — the branch-coverage computation (src/run_coverage_tests.py 254 and 409).
* `detectFunctionBasedSolution`, `extractMainFunctionName`, `assembleAppsSolution`
  — src/run_coverage_tests.py 70-122 and 323-333.
-/

/- ### Python string primitives over `List Char`

Python's `str.strip` removes the six ASCII whitespace characters (we ignore
the non-ASCII whitespace Python also strips: none of the embedded code or of
the inputs of interest contains any). -/

def pySpace (c : Char) : Bool :=
  c == ' ' || c == '\t' || c == '\n' || c == '\r' || c == '\x0b' || c == '\x0c'

/-- Python `s.lstrip()`. -/
def pyLstrip (s : List Char) : List Char := s.dropWhile pySpace

/-- Python `s.rstrip()`. -/
def pyRstrip (s : List Char) : List Char := (s.reverse.dropWhile pySpace).reverse

/-- Python `s.strip()`. -/
def pyStrip (s : List Char) : List Char := pyRstrip (pyLstrip s)

/-- Python `s.split('\n')`: always a nonempty list of newline-free pieces. -/
def splitNL : List Char → List (List Char)
  | [] => [[]]
  | c :: cs =>
    if c == '\n' then [] :: splitNL cs
    else
      match splitNL cs with
      | [] => [[c]]
      | l :: ls => (c :: l) :: ls

/-- Python `'\n'.join(lines)`. -/
def joinNL : List (List Char) → List Char
  | [] => []
  | [l] => l
  | l :: ls => l ++ '\n' :: joinNL ls

/-- First index (relative) at which `p` occurs in `s`, scanning left to right:
the kernel of Python's `str.find`. -/
def findFromAux (p : List Char) : List Char → Option Nat
  | [] => if p.isEmpty then some 0 else none
  | c :: cs => if p.isPrefixOf (c :: cs) then some 0 else (findFromAux p cs).map (· + 1)

/-- Python `s.find(p, start)`; `none` stands for Python's `-1`. -/
def pyFind (p s : List Char) (start : Nat) : Option Nat :=
  (findFromAux p (s.drop start)).map (· + start)

/-- Python `p in s`. -/
def hasSub (p s : List Char) : Bool := (pyFind p s 0).isSome

/-- Python `s[a:b]` for non-negative indices. -/
def pySlice (s : List Char) (a b : Nat) : List Char := (s.drop a).take (b - a)

/- ### The response normalizer (src/run_coverage_tests.py 36-68) -/

def tagPy : List Char := "```python".toList

def tagBt : List Char := "```".toList

def defKw : List Char := "def ".toList

def indentKw : List Char := "    ".toList

def tabKw : List Char := "\t".toList

/-- Fence-stripping phase of `CoverageAnalyzer.clean_llm_response`
(src/run_coverage_tests.py 38-52): prefer a \`\`\`python-tagged fence, else the
first generic fence; slice to the next \`\`\` or to the end; `.strip()` the
slice; with no fence at all the text passes through untouched. -/
def fenceStrip (code : List Char) : List Char :=
  if hasSub tagPy code then
    let start := (pyFind tagPy code 0).getD 0 + 9
    match pyFind tagBt code start with
    | some e => pyStrip (pySlice code start e)
    | none => pyStrip (code.drop start)
  else if hasSub tagBt code then
    let start := (pyFind tagBt code 0).getD 0 + 3
    match pyFind tagBt code start with
    | some e => pyStrip (pySlice code start e)
    | none => pyStrip (code.drop start)
  else code

/-- Per-line step of the indentation fix (src/run_coverage_tests.py 58-65):
blank lines pass through; lines already starting with four spaces or a tab
pass through; any other non-blank line becomes `'    ' + line.strip()`. -/
def fixLine (line : List Char) : List Char :=
  if (pyStrip line).isEmpty then line
  else if indentKw.isPrefixOf line || tabKw.isPrefixOf line then line
  else indentKw ++ pyStrip line

/-- Indentation-fixing phase of `clean_llm_response`
(src/run_coverage_tests.py 54-66): only fires when the first physical line,
stripped, starts with `def `. -/
def indentFix (code : List Char) : List Char :=
  match splitNL code with
  | [] => code
  | l0 :: ls =>
    if defKw.isPrefixOf (pyStrip l0) then joinNL (l0 :: ls.map fixLine) else code

/-- `CoverageAnalyzer.clean_llm_response` (src/run_coverage_tests.py 36-68). -/
def cleanLlmResponse (code : List Char) : List Char := indentFix (fenceStrip code)

/- ### The evaluator's code extraction (src/evaluate_humaneval.py 142-159)

`extract_code` lower-cases the response into a local variable
`lower_llm_response` only inside the `"```python" in llm_response` branch, but
its `elif` tests `"```" in lower_llm_response`: on every input whose original
text does not contain \`\`\`python, evaluating the `elif` condition reads the
unassigned local and raises `UnboundLocalError` (a `NameError`).  The embedding
returns `Except.error PyErr.nameError` there; the `elif` body and the final
`return llm_response.strip()` are unreachable in the source. -/

inductive PyErr where
  | nameError
  deriving DecidableEq, Repr

def extractCode (r : List Char) : Except PyErr (List Char) :=
  if hasSub tagPy r then
    let lower := r.map Char.toLower
    let start := (pyFind tagPy lower 0).getD 0 + 9
    match pyFind tagBt lower start with
    | some e => Except.ok (pyStrip (pySlice r start e))
    | none => Except.ok (pyStrip (r.drop start))
  else Except.error PyErr.nameError

def exIsOk : Except PyErr (List Char) → Bool
  | Except.ok _ => true
  | Except.error _ => false

/- ### Coverage aggregation and the result classifier -/

/-- Branch-coverage percentage (src/run_coverage_tests.py 254 and 409):
`(covered_branches / num_branches * 100) if num_branches > 0 else 100`.
The division is only reached when `num_branches > 0`. -/
def branchCoveragePct (coveredBranches numBranches : Nat) : ℚ :=
  if 0 < numBranches then (coveredBranches : ℚ) / (numBranches : ℚ) * 100 else 100

def msgFailed : String := "Tests failed - coverage may be incomplete"

def msgPerfect : String := "Perfect coverage - all code paths tested"

def msgHighLineLowBranch : String := "High line coverage but low branch coverage - missing edge cases"

def msgExcellent : String := "Excellent coverage"

def msgGoodLineLowBranch : String := "Good line coverage but poor branch coverage - untested conditionals"

def msgGood : String := "Good coverage with room for improvement"

def msgModerate : String := "Moderate coverage - significant untested code paths"

def msgLow : String := "Low coverage - many code paths untested"

/-- All labels `interpret_coverage` can produce, in source order. -/
def verdictLabels : List String :=
  [msgFailed, msgPerfect, msgHighLineLowBranch, msgExcellent,
   msgGoodLineLowBranch, msgGood, msgModerate, msgLow]

/-- `CoverageAnalyzer.interpret_coverage` (src/run_coverage_tests.py 441-459).
In the source, `branch_cov` is always an `int`/`float` at the two call sites
(lines 260 and 413), so the `isinstance(branch_cov, (int, float))` guards are
always true and are dropped from the embedding. -/
def interpretCoverage (lineCov branchCov : ℚ) (numBranches : Nat) (testsPassed : Bool) : String :=
  if testsPassed = false then msgFailed
  else if lineCov = 100 ∧ (branchCov = 100 ∨ numBranches = 0) then msgPerfect
  else if 90 ≤ lineCov then
    if branchCov < 80 then msgHighLineLowBranch else msgExcellent
  else if 70 ≤ lineCov then
    if branchCov < 60 then msgGoodLineLowBranch else msgGood
  else if 50 ≤ lineCov then msgModerate
  else msgLow

/- ### Detection of function-based vs self-driving candidates
(src/run_coverage_tests.py 70-122) -/

def hashKw : List Char := "#".toList

def classKw : List Char := "class ".toList

def importKw : List Char := "import ".toList

def fromKw : List Char := "from ".toList

/-- The scanning loop of `_detect_function_based_solution`
(src/run_coverage_tests.py 79-106), returning `has_execution_code`.  The
source's `continue` after the `in_function`/`in_class` reset falls through to
the import/def/class test with both flags just cleared, so the last branch
recurses with `false false`; any path reaching that test has both flags
false. -/
def detectLoop : List (List Char) → Bool → Bool → Bool
  | [], _, _ => false
  | line :: rest, inFunction, inClass =>
    if (pyStrip line).isEmpty || hashKw.isPrefixOf (pyStrip line) then
      detectLoop rest inFunction inClass
    else if defKw.isPrefixOf (pyStrip line) then detectLoop rest true inClass
    else if classKw.isPrefixOf (pyStrip line) then detectLoop rest inFunction true
    else if (inFunction || inClass) && !(!line.isEmpty && !pySpace (line.headD ' ')) then
      detectLoop rest inFunction inClass
    else if !(importKw.isPrefixOf (pyStrip line)) && !(fromKw.isPrefixOf (pyStrip line)) &&
        !(defKw.isPrefixOf (pyStrip line)) && !(classKw.isPrefixOf (pyStrip line)) then
      true
    else detectLoop rest false false

/-- `CoverageAnalyzer._detect_function_based_solution` (src/run_coverage_tests.py 70-109). -/
def detectFunctionBasedSolution (code : List Char) : Bool :=
  !(detectLoop (splitNL (pyStrip code)) false false)

def extractMainLoop : List (List Char) → Option (List Char)
  | [] => none
  | line :: rest =>
    let stripped := pyStrip line
    if defKw.isPrefixOf stripped then
      some (pyStrip ((stripped.drop 4).takeWhile (fun c => c ≠ '(')))
    else extractMainLoop rest

/-- `CoverageAnalyzer._extract_main_function_name` (src/run_coverage_tests.py 111-122):
`stripped[4:].split('(')[0].strip()` of the first `def ` line. -/
def extractMainFunctionName (code : List Char) : Option (List Char) :=
  extractMainLoop (splitNL (pyStrip code))

/-- The wrapper text appended to a function-based APPS candidate
(src/run_coverage_tests.py 329-333). -/
def wrapperText (mainFunc : List Char) : List Char :=
  "\n\n# Auto-generated wrapper\ndef _run_solution():\n    result = ".toList ++ mainFunc ++
    "()\n    if result is not None:\n        print(result)\n".toList

/-- Solution-code assembly in `test_apps_problem` (src/run_coverage_tests.py 317-333).
The source's `if main_func:` is Python truthiness: it rejects both `None` and
the empty string, so an empty extracted name also suppresses the wrapper. -/
def assembleAppsSolution (llmCode : List Char) : List Char :=
  if detectFunctionBasedSolution llmCode then
    match extractMainFunctionName llmCode with
    | some mainFunc =>
      if mainFunc.isEmpty then llmCode else llmCode ++ wrapperText mainFunc
    | none => llmCode
  else llmCode

/- ### Subprocess invocations that run candidate code -/

structure SubprocessCall where
  argv : List String
  runsCandidateCode : Bool
  timeoutSeconds : Option Nat
  deriving DecidableEq, Repr

/-- `subprocess.run` in `LLMEvaluator.run_tests` (src/evaluate_humaneval.py 170-176):
runs the candidate-importing test file with `timeout=30`. -/
def runTestsCall : SubprocessCall :=
  { argv := ["python", "run_test.py"], runsCandidateCode := true, timeoutSeconds := some 30 }

/-- `subprocess.run` in `test_humaneval_problem` (src/run_coverage_tests.py 197-203):
pytest over the candidate solution; no `timeout` argument is passed. -/
def humanevalPytestCall : SubprocessCall :=
  { argv := ["python", "-m", "pytest", "--cov=solution", "--cov-report=json", "--cov-branch",
             "-v", "--tb=line", "test_solution.py"],
    runsCandidateCode := true, timeoutSeconds := none }

/-- `subprocess.run` in `test_apps_problem` (src/run_coverage_tests.py 377-383):
pytest over the candidate solution; no `timeout` argument is passed. -/
def appsPytestCall : SubprocessCall :=
  { argv := ["python", "-m", "pytest", "--cov=solution", "--cov-report=json", "--cov-branch",
             "-v", "test_solution.py"],
    runsCandidateCode := true, timeoutSeconds := none }

/-- Every harness subprocess invocation that executes candidate code. -/
def harnessCandidateCalls : List SubprocessCall :=
  [runTestsCall, humanevalPytestCall, appsPytestCall]

inductive ProcResult where
  | completed (returncode : Int) (stdout stderr : String)
  | timedOut
  | raised (msg : String)
  deriving DecidableEq, Repr

inductive TestRunRecord where
  | normal (success : Bool) (stdout stderr : String) (returncode : Int)
  | errorRecord (msg : String)
  deriving DecidableEq, Repr

/-- Result-dict construction of `LLMEvaluator.run_tests` (src/evaluate_humaneval.py 168-188):
a completed run gives `{"success": returncode == 0, ...}`; `TimeoutExpired` gives
`{"error": "Test execution timed out"}`; any other exception gives
`{"error": "Test execution failed: ..."}`. -/
def runTestsRecord : ProcResult → TestRunRecord
  | ProcResult.completed rc out err => TestRunRecord.normal (rc == 0) out err rc
  | ProcResult.timedOut => TestRunRecord.errorRecord "Test execution timed out"
  | ProcResult.raised m => TestRunRecord.errorRecord ("Test execution failed: " ++ m)

/- ### The records produced when coverage.json was never generated -/

structure CoverageRecord where
  tests_passed : String
  line_coverage : ℚ
  branch_coverage : Option ℚ
  interpretation : String
  deriving DecidableEq, Repr

def covNotGenerated : String := "Coverage data not generated"

/-- Record returned by `test_humaneval_problem` when the coverage file is absent
(src/run_coverage_tests.py 277-286).  `branch_coverage = none` renders the
source's `'N/A'`; the problem/type fields are omitted as pure labelling. -/
def humanevalNoCoverageRecord : CoverageRecord :=
  { tests_passed := "0/0 (Error)", line_coverage := 0, branch_coverage := none,
    interpretation := covNotGenerated }

/-- Record returned by `test_apps_problem` when the coverage file is absent
(src/run_coverage_tests.py 430-439). -/
def appsNoCoverageRecord (passedTests totalTests : Nat) : CoverageRecord :=
  { tests_passed := toString passedTests ++ "/" ++ toString totalTests,
    line_coverage := 0, branch_coverage := none, interpretation := covNotGenerated }

/- ### The spec's decision table (§4.5), for the refinement claim C1 -/

inductive BranchCov where
  | full
  | pct (q : ℚ)
  deriving DecidableEq

inductive Verdict where
  | failedIncomplete
  | perfectCoverage
  | highLineLowBranch
  | excellent
  | goodLineLowBranch
  | good
  | moderate
  | low
  deriving DecidableEq, Repr

def verdictLabel : Verdict → String
  | Verdict.failedIncomplete => msgFailed
  | Verdict.perfectCoverage => msgPerfect
  | Verdict.highLineLowBranch => msgHighLineLowBranch
  | Verdict.excellent => msgExcellent
  | Verdict.goodLineLowBranch => msgGoodLineLowBranch
  | Verdict.good => msgGood
  | Verdict.moderate => msgModerate
  | Verdict.low => msgLow

/-- Branch coverage counts as full: the distinguished "full" value, or the
percentage 100, which §4.4 says the classifier treats identically. -/
def bcIsFull : BranchCov → Bool
  | BranchCov.full => true
  | BranchCov.pct q => q == 100

/-- Branch coverage below a threshold; "full" is treated as 100. -/
def bcLt (t : ℚ) : BranchCov → Bool
  | BranchCov.full => false
  | BranchCov.pct q => decide (q < t)

/-- Modelled from the spec, §4.5: the six-row ordered decision table, first
match wins. -/
def specClassify (testsPassed : Bool) (lineCov : ℚ) (branchCov : BranchCov)
    (hasBranches : Bool) : Verdict :=
  if testsPassed = false then Verdict.failedIncomplete
  else if lineCov = 100 ∧ (bcIsFull branchCov = true ∨ hasBranches = false) then
    Verdict.perfectCoverage
  else if 90 ≤ lineCov then
    if hasBranches = true ∧ bcLt 80 branchCov = true then Verdict.highLineLowBranch
    else Verdict.excellent
  else if 70 ≤ lineCov then
    if hasBranches = true ∧ bcLt 60 branchCov = true then Verdict.goodLineLowBranch
    else Verdict.good
  else if 50 ≤ lineCov then Verdict.moderate
  else Verdict.low

/-- The spec's branch-coverage value for given instrumentation counts:
"full" when the source declares no branches, else the computed percentage. -/
def toBranchCov (coveredBranches numBranches : Nat) : BranchCov :=
  if numBranches = 0 then BranchCov.full
  else BranchCov.pct (branchCoveragePct coveredBranches numBranches)

/- ### A statement-level view of candidate modules, for claim C9

The spec's detection rule (§4.2) speaks of top-level *statements*;
`_detect_function_based_solution` scans physical *lines*.  `PyStmt` renders a
module from its top-level statements so the two views can be compared.
`frmCont` is a single from-import statement whose parenthesised name list
continues on further physical lines — legal Python, one import statement. -/

inductive PyStmt where
  | imp (rest : List Char)
  | frm (rest : List Char)
  | frmCont (rest : List Char) (cont : List (List Char))
  | funcdef (name : List Char) (body : List (List Char))
  | classdef (name : List Char) (body : List (List Char))
  | guard (body : List (List Char))
  | exprStmt (line : List Char)
  deriving DecidableEq, Repr

def guardLine : List Char := "if __name__ == \"__main__\":".toList

def indentLines (body : List (List Char)) : List (List Char) :=
  body.map (fun l => indentKw ++ l)

/-- The physical lines of one top-level statement. -/
def stmtLines : PyStmt → List (List Char)
  | PyStmt.imp rest => [importKw ++ rest]
  | PyStmt.frm rest => [fromKw ++ rest]
  | PyStmt.frmCont rest cont => (fromKw ++ rest) :: cont
  | PyStmt.funcdef name body => (defKw ++ name ++ "():".toList) :: indentLines body
  | PyStmt.classdef name body => (classKw ++ name ++ ":".toList) :: indentLines body
  | PyStmt.guard body => guardLine :: indentLines body
  | PyStmt.exprStmt line => [line]

/-- The module's source text. -/
def renderModule (stmts : List PyStmt) : List Char :=
  joinNL (stmts.map stmtLines).flatten

/-- Modelled from the spec, §4.2 detection rule: function-based exactly when
every top-level statement is an import or a function/class definition.  A
guard block or any other executable statement makes the module self-driving. -/
def specFunctionBased (stmts : List PyStmt) : Bool :=
  stmts.all fun s =>
    match s with
    | PyStmt.imp _ => true
    | PyStmt.frm _ => true
    | PyStmt.frmCont _ _ => true
    | PyStmt.funcdef _ _ => true
    | PyStmt.classdef _ _ => true
    | PyStmt.guard _ => false
    | PyStmt.exprStmt _ => false

def noNL (l : List Char) : Bool := !(l.contains '\n')

/-- A line with no surrounding whitespace and at least one character. -/
def cleanLine (l : List Char) : Bool :=
  !l.isEmpty && !pySpace (l.headD ' ') && !pySpace (l.getLastD ' ')

/-- A function/class/guard body line: newline-free, nonempty, not ending in
whitespace (so that stripping the whole module text touches no line). -/
def bodyLineOK (l : List Char) : Bool :=
  noNL l && !l.isEmpty && !pySpace (l.getLastD ' ')

/-- Statements covered by the amended line-vs-statement equivalence:
single-line imports, simple definitions, guard blocks and other single-line
top-level statements, all whitespace-trimmed.  `frmCont` is excluded — it is
the statement shape on which the source's line-based heuristic diverges. -/
def stmtOK : PyStmt → Bool
  | PyStmt.imp rest => noNL rest && !rest.isEmpty && !pySpace (rest.getLastD ' ')
  | PyStmt.frm rest => noNL rest && !rest.isEmpty && !pySpace (rest.getLastD ' ')
  | PyStmt.frmCont _ _ => false
  | PyStmt.funcdef name body => noNL name && body.all bodyLineOK
  | PyStmt.classdef name body => noNL name && body.all bodyLineOK
  | PyStmt.guard body => body.all bodyLineOK
  | PyStmt.exprStmt l =>
    noNL l && cleanLine l && !(hashKw.isPrefixOf l) && !(importKw.isPrefixOf l) &&
      !(fromKw.isPrefixOf l) && !(defKw.isPrefixOf l) && !(classKw.isPrefixOf l)

def wfModule (stmts : List PyStmt) : Bool := stmts.all stmtOK

/- ### Per-test-case namespace state, for claim C8

The generated APPS test driver begins every test case with
`import solution; importlib.reload(solution)` (src/run_coverage_tests.py
350-352).  Python's documented `importlib.reload` semantics re-runs the
module's top-level code in the module's *retained* dict: names the top-level
code rebinds are re-initialized, names it does not rebind persist.  The tiny
top-level language below has unconditional assignment (`x = v`) and guarded
initialization (`if 'x' not in globals(): x = v`), enough to separate the two
behaviours. -/

inductive TStmt where
  | assign (x : String) (v : Int)
  | assignIfAbsent (x : String) (v : Int)
  deriving DecidableEq, Repr

abbrev Env : Type := List (String × Int)

def envSet (env : Env) (x : String) (v : Int) : Env := (x, v) :: env

def envGet (env : Env) (x : String) : Option Int := env.lookup x

def execStmt (env : Env) : TStmt → Env
  | TStmt.assign x v => envSet env x v
  | TStmt.assignIfAbsent x v =>
    match envGet env x with
    | some _ => env
    | none => envSet env x v

/-- Run a module's top-level statements over a namespace dict. -/
def execModule (mod : List TStmt) (env : Env) : Env := mod.foldl execStmt env

/-- Modelled from the generated driver (src/run_coverage_tests.py 351-352) and
Python's `importlib.reload`: re-execute the top level over the retained dict. -/
def reloadModule (mod : List TStmt) (env : Env) : Env := execModule mod env

/-- A freshly re-initialized copy of the module namespace: the top level run
in an empty dict. -/
def freshModule (mod : List TStmt) : Env := execModule mod []

/-- Whether the module's top level unconditionally assigns `x`. -/
def assignsUncond (mod : List TStmt) (x : String) : Bool :=
  mod.any fun s =>
    match s with
    | TStmt.assign y _ => y == x
    | TStmt.assignIfAbsent _ _ => false

/-- Whether every top-level statement is an unconditional assignment. -/
def allUncond (mod : List TStmt) : Bool :=
  mod.all fun s =>
    match s with
    | TStmt.assign _ _ => true
    | TStmt.assignIfAbsent _ _ => false

/- ### Claim-side helpers (read off the spec's wording, for counterexamples) -/

/-- First line of `code` whose strip is non-blank. -/
def firstNonBlankLine (code : List Char) : Option (List Char) :=
  (splitNL code).find? (fun l => !(pyStrip l).isEmpty)

/-- Spec §4.1: the first non-blank line is a function definition header. -/
def firstNonBlankIsDef (code : List Char) : Bool :=
  match firstNonBlankLine code with
  | some l => defKw.isPrefixOf (pyStrip l)
  | none => false

/-- Every non-blank line after the first non-blank line starts with an
indentation level (four spaces or a tab). -/
def tailLinesIndented (code : List Char) : Bool :=
  (((splitNL code).dropWhile (fun l => (pyStrip l).isEmpty)).drop 1).all
    (fun l => (pyStrip l).isEmpty || indentKw.isPrefixOf l || tabKw.isPrefixOf l)

/-- `p` occurs as a contiguous substring of `s`. -/
def Occ (p s : List Char) : Prop := ∃ u v, s = u ++ p ++ v

/- ### Lemmas: Python-string primitives -/

theorem pfxIff {p l : List Char} : p.isPrefixOf l = true ↔ p <+: l :=
  List.isPrefixOf_iff_prefix

theorem pyLstrip_sufOf (s : List Char) : pyLstrip s <:+ s :=
  List.dropWhile_suffix pySpace

theorem pyRstrip_pfxOf (s : List Char) : pyRstrip s <+: s := by
  obtain ⟨u, hu⟩ := List.dropWhile_suffix (l := s.reverse) pySpace
  refine ⟨u.reverse, ?_⟩
  rw [pyRstrip, ← List.reverse_append, hu, List.reverse_reverse]

theorem pyStrip_infixOf (s : List Char) : pyStrip s <:+: s := by
  obtain ⟨a, ha⟩ := pyRstrip_pfxOf (pyLstrip s)
  obtain ⟨b, hb⟩ := pyLstrip_sufOf s
  refine ⟨b, a, ?_⟩
  rw [pyStrip, List.append_assoc, ha, hb]

theorem pyLstrip_cons_space {c : Char} {s : List Char} (h : pySpace c = true) :
    pyLstrip (c :: s) = pyLstrip s := by
  simp [pyLstrip, List.dropWhile_cons, h]

theorem pyLstrip_cons_keep {c : Char} {s : List Char} (h : pySpace c = false) :
    pyLstrip (c :: s) = c :: s := by
  simp [pyLstrip, List.dropWhile_cons, h]

theorem pyStrip_cons_space {c : Char} {s : List Char} (h : pySpace c = true) :
    pyStrip (c :: s) = pyStrip s := by
  rw [pyStrip, pyLstrip_cons_space h]
  rfl

theorem pyRstrip_concat_keep {c : Char} {t : List Char} (h : pySpace c = false) :
    pyRstrip (t ++ [c]) = t ++ [c] := by
  simp [pyRstrip, List.dropWhile_cons, h]

theorem dropWhile_space_head {l : List Char} {c : Char} {t : List Char}
    (h : l.dropWhile pySpace = c :: t) : pySpace c = false := by
  induction l with
  | nil => simp at h
  | cons a l ih =>
    by_cases ha : pySpace a
    · rw [List.dropWhile_cons, if_pos ha] at h
      exact ih h
    · rw [List.dropWhile_cons, if_neg ha] at h
      cases h
      exact Bool.eq_false_iff.mpr ha

theorem pyStrip_eq_self {s : List Char} (hne : s ≠ [])
    (hh : pySpace (s.headD ' ') = false) (hl : pySpace (s.getLastD ' ') = false) :
    pyStrip s = s := by
  obtain ⟨c, t, rfl⟩ := List.exists_cons_of_ne_nil hne
  rw [pyStrip, pyLstrip_cons_keep (by simpa using hh)]
  obtain h | ⟨t2, a, ha⟩ := List.eq_nil_or_concat (c :: t)
  · simp at h
  · rw [ha, List.concat_eq_append]
    refine pyRstrip_concat_keep ?_
    rw [ha] at hl
    simpa using hl

theorem pyStrip_head_ok {s : List Char} {c : Char} {t : List Char}
    (h : pyStrip s = c :: t) : pySpace c = false := by
  obtain ⟨r, hr⟩ := pyRstrip_pfxOf (pyLstrip s)
  rw [pyStrip] at h
  rw [h] at hr
  exact dropWhile_space_head (l := s) hr.symm

theorem pyStrip_last_ok {s : List Char} {t : List Char} {a : Char}
    (h : pyStrip s = t ++ [a]) : pySpace a = false := by
  have hrev : (pyStrip s).reverse = (pyLstrip s).reverse.dropWhile pySpace := by
    rw [pyStrip, pyRstrip, List.reverse_reverse]
  rw [h] at hrev
  simp only [List.reverse_append, List.reverse_cons, List.reverse_nil,
    List.nil_append, List.cons_append] at hrev
  exact dropWhile_space_head (l := (pyLstrip s).reverse) hrev.symm

theorem pyStrip_idem (s : List Char) : pyStrip (pyStrip s) = pyStrip s := by
  obtain h | ⟨t, a, ha⟩ := List.eq_nil_or_concat (pyStrip s)
  · rw [h]; rfl
  · have hne : pyStrip s ≠ [] := by rw [ha]; simp
    obtain ⟨c, u, hcu⟩ := List.exists_cons_of_ne_nil hne
    refine pyStrip_eq_self hne ?_ ?_
    · rw [hcu]
      simpa using pyStrip_head_ok hcu
    · rw [ha]
      simpa using pyStrip_last_ok (List.concat_eq_append t a ▸ ha)

theorem pyStrip_indent (s : List Char) : pyStrip (indentKw ++ s) = pyStrip s := by
  have h4 : indentKw = [' ', ' ', ' ', ' '] := by decide
  rw [h4]
  simp only [List.cons_append, List.nil_append]
  rw [pyStrip_cons_space (by decide), pyStrip_cons_space (by decide),
    pyStrip_cons_space (by decide), pyStrip_cons_space (by decide)]

/- ### Lemmas: line splitting and joining -/

theorem splitNL_ne_nil (s : List Char) : splitNL s ≠ [] := by
  cases s with
  | nil => simp [splitNL]
  | cons c cs =>
    simp only [splitNL]
    split
    · simp
    · split
      · simp
      · simp

theorem joinNL_cons {l : List Char} {ls : List (List Char)} (h : ls ≠ []) :
    joinNL (l :: ls) = l ++ '\n' :: joinNL ls := by
  cases ls with
  | nil => exact absurd rfl h
  | cons l2 ls2 => rfl

theorem splitNL_cons_nl (cs : List Char) : splitNL ('\n' :: cs) = [] :: splitNL cs := by
  simp [splitNL]

theorem splitNL_cons_of {c : Char} {cs l : List Char} {ls : List (List Char)}
    (hc : c ≠ '\n') (h : splitNL cs = l :: ls) : splitNL (c :: cs) = (c :: l) :: ls := by
  simp [splitNL, hc, h]

theorem joinNL_splitNL (s : List Char) : joinNL (splitNL s) = s := by
  induction s with
  | nil => rfl
  | cons c cs ih =>
    by_cases hc : c = '\n'
    · subst hc
      rw [splitNL_cons_nl, joinNL_cons (splitNL_ne_nil cs), List.nil_append, ih]
    · obtain ⟨l, ls, hls⟩ : ∃ l ls, splitNL cs = l :: ls := by
        cases h : splitNL cs with
        | nil => exact absurd h (splitNL_ne_nil cs)
        | cons l ls => exact ⟨l, ls, rfl⟩
      rw [splitNL_cons_of hc hls]
      rw [hls] at ih
      cases ls with
      | nil =>
        simp only [joinNL] at ih ⊢
        rw [ih]
      | cons l2 ls2 =>
        rw [joinNL_cons (by simp)] at ih
        rw [joinNL_cons (by simp), List.cons_append, ih]

theorem splitNL_single {l : List Char} (hl : '\n' ∉ l) : splitNL l = [l] := by
  induction l with
  | nil => rfl
  | cons c t ih =>
    have hc : c ≠ '\n' := fun h => hl (h ▸ List.mem_cons_self c t)
    have ht : '\n' ∉ t := fun h => hl (List.mem_cons_of_mem c h)
    rw [splitNL_cons_of hc (ih ht)]

theorem splitNL_append_line {l : List Char} (hl : '\n' ∉ l) (r : List Char) :
    splitNL (l ++ '\n' :: r) = l :: splitNL r := by
  induction l with
  | nil => rw [List.nil_append, splitNL_cons_nl]
  | cons c t ih =>
    have hc : c ≠ '\n' := fun h => hl (h ▸ List.mem_cons_self c t)
    have ht : '\n' ∉ t := fun h => hl (List.mem_cons_of_mem c h)
    rw [List.cons_append, splitNL_cons_of hc (ih ht)]

theorem splitNL_joinNL {ls : List (List Char)} (hne : ls ≠ [])
    (h : ∀ l ∈ ls, '\n' ∉ l) : splitNL (joinNL ls) = ls := by
  induction ls with
  | nil => exact absurd rfl hne
  | cons l ls ih =>
    cases ls with
    | nil =>
      simp only [joinNL]
      exact splitNL_single (h l (List.mem_cons_self l []))
    | cons l2 ls2 =>
      rw [joinNL_cons (by simp), splitNL_append_line (h l (List.mem_cons_self l _)),
        ih (by simp) (fun x hx => h x (List.mem_cons_of_mem l hx))]

theorem splitNL_no_nl {s l : List Char} (h : l ∈ splitNL s) : '\n' ∉ l := by
  induction s generalizing l with
  | nil =>
    simp only [splitNL, List.mem_singleton] at h
    subst h; simp
  | cons c cs ih =>
    by_cases hc : c = '\n'
    · subst hc
      rw [splitNL_cons_nl] at h
      rcases List.mem_cons.mp h with h | h
      · subst h; simp
      · exact ih h
    · obtain ⟨l2, ls, hls⟩ : ∃ l2 ls, splitNL cs = l2 :: ls := by
        cases h2 : splitNL cs with
        | nil => exact absurd h2 (splitNL_ne_nil cs)
        | cons x y => exact ⟨x, y, rfl⟩
      rw [splitNL_cons_of hc hls] at h
      rcases List.mem_cons.mp h with h | h
      · subst h
        intro hm
        rcases List.mem_cons.mp hm with h | h
        · exact hc h.symm
        · exact ih (l := l2) (by rw [hls]; exact List.mem_cons_self l2 ls) h
      · exact ih (l := l) (by rw [hls]; exact List.mem_cons_of_mem l2 h)

/- ### Lemmas: substring search -/

theorem findFromAux_none {p : List Char} (hp : p ≠ []) {s : List Char}
    (h : findFromAux p s = none) : ∀ i, ¬ p <+: s.drop i := by
  induction s with
  | nil =>
    intro i hpre
    rw [List.drop_nil] at hpre
    exact hp (List.prefix_nil.mp hpre)
  | cons c cs ih =>
    rw [findFromAux] at h
    by_cases hpre : p.isPrefixOf (c :: cs)
    · rw [if_pos hpre] at h
      exact absurd h (by simp)
    · rw [if_neg hpre] at h
      have h2 : findFromAux p cs = none := by
        cases h3 : findFromAux p cs with
        | none => rfl
        | some j => rw [h3] at h; simp at h
      intro i
      cases i with
      | zero => simpa using fun hc => hpre (pfxIff.mpr hc)
      | succ i => simpa using ih h2 i

theorem findFromAux_some {p s : List Char} {j : Nat}
    (h : findFromAux p s = some j) :
    p <+: s.drop j ∧ ∀ k, k < j → ¬ p <+: s.drop k := by
  induction s generalizing j with
  | nil =>
    rw [findFromAux] at h
    by_cases hp : p.isEmpty
    · rw [if_pos hp] at h
      cases h
      refine ⟨by simp [List.isEmpty_iff.mp hp], ?_⟩
      intro k hk
      omega
    · rw [if_neg hp] at h
      simp at h
  | cons c cs ih =>
    rw [findFromAux] at h
    by_cases hpre : p.isPrefixOf (c :: cs)
    · rw [if_pos hpre] at h
      cases h
      refine ⟨by simpa using pfxIff.mp hpre, ?_⟩
      intro k hk
      omega
    · rw [if_neg hpre] at h
      cases h3 : findFromAux p cs with
      | none => rw [h3] at h; simp at h
      | some j2 =>
        rw [h3] at h
        obtain ⟨hpre2, hmin⟩ := ih h3
        have hj : j = j2 + 1 := by
          simpa using h.symm
        subst hj
        refine ⟨by simpa using hpre2, ?_⟩
        intro k hk
        cases k with
        | zero => simpa using fun hc => hpre (pfxIff.mpr hc)
        | succ k2 => simpa using hmin k2 (by omega)

theorem pyFind_none {p : List Char} (hp : p ≠ []) {s : List Char} {start : Nat}
    (h : pyFind p s start = none) : ∀ k, start ≤ k → ¬ p <+: s.drop k := by
  rw [pyFind] at h
  have h2 : findFromAux p (s.drop start) = none := by
    cases h3 : findFromAux p (s.drop start) with
    | none => rfl
    | some j => rw [h3] at h; simp at h
  intro k hk hpre
  have h4 := findFromAux_none hp h2 (k - start)
  rw [List.drop_drop] at h4
  have hk2 : start + (k - start) = k := by omega
  rw [hk2] at h4
  exact h4 hpre

theorem pyFind_some {p s : List Char} {start e : Nat}
    (h : pyFind p s start = some e) :
    start ≤ e ∧ p <+: s.drop e ∧ ∀ k, start ≤ k → k < e → ¬ p <+: s.drop k := by
  rw [pyFind] at h
  cases h3 : findFromAux p (s.drop start) with
  | none => rw [h3] at h; simp at h
  | some j =>
    rw [h3] at h
    obtain ⟨hpre, hmin⟩ := findFromAux_some h3
    have he : e = start + j := by
      simpa [Nat.add_comm] using h.symm
    subst he
    refine ⟨by omega, ?_, ?_⟩
    · rwa [List.drop_drop] at hpre
    · intro k hk1 hk2 hpre2
      have h4 := hmin (k - start) (by omega)
      rw [List.drop_drop] at h4
      have hk3 : start + (k - start) = k := by omega
      rw [hk3] at h4
      exact h4 hpre2

theorem pyFind_eq_some {p : List Char} (hp : p ≠ []) {s : List Char} {start e : Nat}
    (h1 : start ≤ e) (h2 : p <+: s.drop e)
    (h3 : ∀ k, start ≤ k → k < e → ¬ p <+: s.drop k) : pyFind p s start = some e := by
  cases hf : pyFind p s start with
  | none => exact absurd h2 (pyFind_none hp hf e h1)
  | some e2 =>
    obtain ⟨hle, hpre, hmin⟩ := pyFind_some hf
    congr 1
    by_contra hne
    rcases Nat.lt_or_ge e2 e with hlt | hge
    · exact h3 e2 hle hlt hpre
    · exact hmin e h1 (by omega) h2

/- ### Lemmas: substring occurrence -/

theorem occ_of_drop_pfx {p s : List Char} {i : Nat} (h : p <+: s.drop i) : Occ p s := by
  obtain ⟨t, ht⟩ := h
  exact ⟨s.take i, t, by rw [List.append_assoc, ht, List.take_append_drop]⟩

theorem occ_exists_drop {p s : List Char} (h : Occ p s) : ∃ i, p <+: s.drop i := by
  obtain ⟨u, v, rfl⟩ := h
  refine ⟨u.length, ?_⟩
  rw [List.append_assoc, List.drop_left]
  exact ⟨v, rfl⟩

theorem occ_of_infixOf {p t s : List Char} (ht : t <:+: s) (h : Occ p t) : Occ p s := by
  obtain ⟨a, b, rfl⟩ := ht
  obtain ⟨u, v, rfl⟩ := h
  exact ⟨a ++ u, v ++ b, by simp [List.append_assoc]⟩

theorem occ_nil {p : List Char} (hp : p ≠ []) : ¬ Occ p [] := by
  rintro ⟨u, v, h⟩
  have hlen := congrArg List.length h
  have hp2 : 0 < p.length := List.length_pos.mpr hp
  simp at hlen
  omega

theorem hasSub_iff_occ {p : List Char} (hp : p ≠ []) {s : List Char} :
    hasSub p s = true ↔ Occ p s := by
  constructor
  · intro h
    rw [hasSub] at h
    cases hf : pyFind p s 0 with
    | none => rw [hf] at h; simp at h
    | some e => exact occ_of_drop_pfx (pyFind_some hf).2.1
  · intro h
    obtain ⟨i, hi⟩ := occ_exists_drop h
    rw [hasSub]
    cases hf : pyFind p s 0 with
    | none => exact absurd hi (pyFind_none hp hf i (by omega))
    | some e => simp

theorem hasSub_false_iff {p : List Char} (hp : p ≠ []) {s : List Char} :
    hasSub p s = false ↔ ¬ Occ p s := by
  rw [← hasSub_iff_occ hp]
  constructor
  · intro h h2
    rw [h] at h2
    exact Bool.false_ne_true h2
  · intro h
    exact Bool.eq_false_iff.mpr h

theorem occ_cons_elim {p : List Char} {c : Char} {t : List Char}
    (hnp : ¬ p <+: (c :: t)) (h : Occ p (c :: t)) : Occ p t := by
  obtain ⟨u, v, huv⟩ := h
  cases u with
  | nil => exact absurd ⟨v, by simpa using huv.symm⟩ hnp
  | cons a u2 =>
    rw [List.cons_append, List.cons_append] at huv
    rw [List.cons_eq_cons] at huv
    exact ⟨u2, v, by rw [huv.2, List.append_assoc]⟩

theorem occ_append_elim {p a b : List Char} {sep : Char} (hp : p ≠ []) (hsep : sep ∉ p)
    (h : Occ p (a ++ sep :: b)) : Occ p a ∨ Occ p b := by
  obtain ⟨u, v, huv⟩ := h
  rw [List.append_assoc] at huv
  rcases List.append_eq_append_iff.mp huv.symm with ⟨w, ha, hpv⟩ | ⟨w, hu, hsb⟩
  · rcases List.append_eq_append_iff.mp hpv with ⟨w2, hw, hv⟩ | ⟨w2, hpw, hsb2⟩
    · left
      exact ⟨u, w2, by rw [ha, hw, List.append_assoc]⟩
    · cases w2 with
      | nil =>
        left
        rw [List.append_nil] at hpw
        exact ⟨u, [], by rw [ha, hpw, List.append_nil]⟩
      | cons s2 w3 =>
        exfalso
        rw [List.cons_append] at hsb2
        injection hsb2 with h1 h2
        apply hsep
        rw [hpw, h1]
        exact List.mem_append_right w (List.mem_cons_self s2 w3)
  · cases w with
    | nil =>
      exfalso
      rw [List.nil_append] at hsb
      obtain ⟨ph, pt, hph⟩ : ∃ ph pt, p = ph :: pt := by
        cases p with
        | nil => exact absurd rfl hp
        | cons x y => exact ⟨x, y, rfl⟩
      rw [hph, List.cons_append] at hsb
      injection hsb with h1 h2
      apply hsep
      rw [hph, h1]
      exact List.mem_cons_self ph pt
    | cons s2 w3 =>
      right
      rw [List.cons_append] at hsb
      injection hsb with h1 h2
      exact ⟨w3, v, by rw [h2, List.append_assoc]⟩

theorem occ_joinNL_elim {p : List Char} (hp : p ≠ []) (hnl : '\n' ∉ p)
    {ls : List (List Char)} (h : Occ p (joinNL ls)) : ∃ l ∈ ls, Occ p l := by
  induction ls with
  | nil => exact absurd h (occ_nil hp)
  | cons l ls ih =>
    cases ls with
    | nil => exact ⟨l, by simp, h⟩
    | cons l2 ls2 =>
      rw [joinNL_cons (by simp)] at h
      rcases occ_append_elim hp hnl h with h | h
      · exact ⟨l, by simp, h⟩
      · obtain ⟨x, hx, hocc⟩ := ih h
        exact ⟨x, List.mem_cons_of_mem l hx, hocc⟩

theorem mem_joinNL_infixOf {l : List Char} {ls : List (List Char)} (h : l ∈ ls) :
    l <:+: joinNL ls := by
  induction ls with
  | nil => simp at h
  | cons l2 ls ih =>
    cases ls with
    | nil =>
      rw [List.mem_singleton] at h
      subst h
      exact ⟨[], [], by simp [joinNL]⟩
    | cons l3 ls3 =>
      rw [joinNL_cons (by simp)]
      rcases List.mem_cons.mp h with h | h
      · subst h
        exact ⟨[], '\n' :: joinNL (l3 :: ls3), by simp⟩
      · obtain ⟨a, b, hab⟩ := ih h
        exact ⟨l2 ++ '\n' :: a, b, by rw [← hab]; simp [List.append_assoc]⟩

theorem mem_splitNL_infixOf {s l : List Char} (h : l ∈ splitNL s) : l <:+: s := by
  have h2 := mem_joinNL_infixOf h
  rwa [joinNL_splitNL] at h2

/- ### Lemmas: the fence stripper leaves no backtick fence behind -/

theorem tagBt_ne_nil : tagBt ≠ [] := by decide

theorem tagPy_ne_nil : tagPy ≠ [] := by decide

theorem occ_tagBt_of_tagPy {s : List Char} (h : Occ tagPy s) : Occ tagBt s := by
  obtain ⟨u, v, rfl⟩ := h
  have hr : tagPy = tagBt ++ "python".toList := by decide
  exact ⟨u, "python".toList ++ v, by rw [hr]; simp [List.append_assoc]⟩

theorem not_pfx_head {p : List Char} {c : Char} {t : List Char} (hp : p ≠ [])
    (h : p.headD c ≠ c) : ¬ p <+: (c :: t) := by
  rintro ⟨r, hr⟩
  cases p with
  | nil => exact hp rfl
  | cons a q =>
    rw [List.cons_append] at hr
    injection hr with h1 h2
    exact h (by simpa using h1)

theorem no_occ_pySlice {s : List Char} {start e : Nat}
    (h : pyFind tagBt s start = some e) : ¬ Occ tagBt (pySlice s start e) := by
  intro hocc
  obtain ⟨hle, hpre, hmin⟩ := pyFind_some h
  obtain ⟨i, hi⟩ := occ_exists_drop hocc
  rw [pySlice, List.drop_take] at hi
  have h2 : tagBt <+: (s.drop start).drop i :=
    hi.trans ( List.take_prefix _ _)
  rw [List.drop_drop] at h2
  have hilt : i < e - start := by
    by_contra hge
    have h0 : e - start - i = 0 := by omega
    rw [h0, List.take_zero] at hi
    exact tagBt_ne_nil (List.prefix_nil.mp hi)
  exact hmin (start + i) (by omega) (by omega) h2

theorem no_occ_dropFrom {s : List Char} {start : Nat}
    (h : pyFind tagBt s start = none) : ¬ Occ tagBt (s.drop start) := by
  intro hocc
  obtain ⟨i, hi⟩ := occ_exists_drop hocc
  rw [List.drop_drop] at hi
  exact pyFind_none tagBt_ne_nil h (start + i) (by omega) hi

theorem no_occ_pyStrip {p s : List Char} (h : ¬ Occ p s) : ¬ Occ p (pyStrip s) :=
  fun h2 => h (occ_of_infixOf (pyStrip_infixOf s) h2)

theorem no_occ_fenceStrip (x : List Char) : ¬ Occ tagBt (fenceStrip x) := by
  rw [fenceStrip]
  by_cases h1 : hasSub tagPy x = true
  · rw [if_pos h1]
    show ¬ Occ tagBt
      (match pyFind tagBt x ((pyFind tagPy x 0).getD 0 + 9) with
       | some e => pyStrip (pySlice x ((pyFind tagPy x 0).getD 0 + 9) e)
       | none => pyStrip (x.drop ((pyFind tagPy x 0).getD 0 + 9)))
    cases hf : pyFind tagBt x ((pyFind tagPy x 0).getD 0 + 9) with
    | some e => exact no_occ_pyStrip (no_occ_pySlice hf)
    | none => exact no_occ_pyStrip (no_occ_dropFrom hf)
  · rw [if_neg h1]
    by_cases h2 : hasSub tagBt x = true
    · rw [if_pos h2]
      show ¬ Occ tagBt
        (match pyFind tagBt x ((pyFind tagBt x 0).getD 0 + 3) with
         | some e => pyStrip (pySlice x ((pyFind tagBt x 0).getD 0 + 3) e)
         | none => pyStrip (x.drop ((pyFind tagBt x 0).getD 0 + 3)))
      cases hf : pyFind tagBt x ((pyFind tagBt x 0).getD 0 + 3) with
      | some e => exact no_occ_pyStrip (no_occ_pySlice hf)
      | none => exact no_occ_pyStrip (no_occ_dropFrom hf)
    · rw [if_neg h2]
      exact (hasSub_false_iff tagBt_ne_nil).mp (Bool.eq_false_iff.mpr h2)

/- ### Lemmas: the indentation fixer -/

theorem noNL_pyStrip {l : List Char} (h : '\n' ∉ l) : '\n' ∉ pyStrip l := by
  intro h2
  obtain ⟨a, b, hab⟩ := pyStrip_infixOf l
  exact h (by rw [← hab]; exact List.mem_append_left _ (List.mem_append_right _ h2))

theorem noNL_fixLine {l : List Char} (h : '\n' ∉ l) : '\n' ∉ fixLine l := by
  rw [fixLine]
  by_cases h1 : (pyStrip l).isEmpty = true
  · rw [if_pos h1]; exact h
  · rw [if_neg h1]
    by_cases h2 : (indentKw.isPrefixOf l || tabKw.isPrefixOf l) = true
    · rw [if_pos h2]; exact h
    · rw [if_neg h2]
      intro hm
      rcases List.mem_append.mp hm with hm | hm
      · revert hm; decide
      · exact noNL_pyStrip h hm

theorem no_occ_indent_append {t : List Char} (h : ¬ Occ tagBt t) :
    ¬ Occ tagBt (indentKw ++ t) := by
  have h4 : indentKw = [' ', ' ', ' ', ' '] := by decide
  rw [h4]
  simp only [List.cons_append, List.nil_append]
  intro hocc
  have hsp : ¬ tagBt <+: (' ' :: ([' ', ' ', ' '] ++ t)) :=
    not_pfx_head tagBt_ne_nil (by decide)
  have s1 := occ_cons_elim (by simpa using hsp) hocc
  have s2 := occ_cons_elim (not_pfx_head tagBt_ne_nil (by decide)) s1
  have s3 := occ_cons_elim (not_pfx_head tagBt_ne_nil (by decide)) s2
  have s4 := occ_cons_elim (not_pfx_head tagBt_ne_nil (by decide)) s3
  exact h s4

theorem no_occ_fixLine {l : List Char} (h : ¬ Occ tagBt l) : ¬ Occ tagBt (fixLine l) := by
  rw [fixLine]
  by_cases h1 : (pyStrip l).isEmpty = true
  · rw [if_pos h1]; exact h
  · rw [if_neg h1]
    by_cases h2 : (indentKw.isPrefixOf l || tabKw.isPrefixOf l) = true
    · rw [if_pos h2]; exact h
    · rw [if_neg h2]
      exact no_occ_indent_append (no_occ_pyStrip h)

theorem indentFix_of_split {s l0 : List Char} {ls : List (List Char)}
    (h : splitNL s = l0 :: ls) :
    indentFix s =
      if defKw.isPrefixOf (pyStrip l0) = true then joinNL (l0 :: ls.map fixLine) else s := by
  rw [indentFix, h]

theorem no_occ_indentFix {s : List Char} (h : ¬ Occ tagBt s) :
    ¬ Occ tagBt (indentFix s) := by
  cases hsp : splitNL s with
  | nil => exact absurd hsp (splitNL_ne_nil s)
  | cons l0 ls =>
    rw [indentFix_of_split hsp]
    by_cases hdef : defKw.isPrefixOf (pyStrip l0) = true
    · rw [if_pos hdef]
      intro hocc
      obtain ⟨l, hl, hoccl⟩ := occ_joinNL_elim tagBt_ne_nil (by decide) hocc
      rcases List.mem_cons.mp hl with rfl | hl2
      · exact h (occ_of_infixOf
          (mem_splitNL_infixOf (by rw [hsp]; exact List.mem_cons_self _ _)) hoccl)
      · obtain ⟨l1, hl1, rfl⟩ := List.mem_map.mp hl2
        have hinf : l1 <:+: s :=
          mem_splitNL_infixOf (by rw [hsp]; exact List.mem_cons_of_mem _ hl1)
        exact no_occ_fixLine (fun hx => h (occ_of_infixOf hinf hx)) hoccl
    · rw [if_neg hdef]
      exact h

theorem indentKw_pfx_self (t : List Char) : indentKw.isPrefixOf (indentKw ++ t) = true :=
  pfxIff.mpr ⟨t, rfl⟩

theorem fixLine_idem (l : List Char) : fixLine (fixLine l) = fixLine l := by
  by_cases h1 : (pyStrip l).isEmpty = true
  · have e1 : fixLine l = l := by rw [fixLine, if_pos h1]
    rw [e1]
    exact e1
  · by_cases h2 : (indentKw.isPrefixOf l || tabKw.isPrefixOf l) = true
    · have e1 : fixLine l = l := by rw [fixLine, if_neg h1, if_pos h2]
      rw [e1]
      exact e1
    · have e1 : fixLine l = indentKw ++ pyStrip l := by rw [fixLine, if_neg h1, if_neg h2]
      rw [e1]
      have h3 : (pyStrip (indentKw ++ pyStrip l)).isEmpty = false := by
        rw [pyStrip_indent, pyStrip_idem]
        exact Bool.eq_false_iff.mpr h1
      rw [fixLine, if_neg (by simp [h3]),
        if_pos (by rw [indentKw_pfx_self]; rfl)]

theorem indentFix_idem (s : List Char) : indentFix (indentFix s) = indentFix s := by
  cases hsp : splitNL s with
  | nil => exact absurd hsp (splitNL_ne_nil s)
  | cons l0 ls =>
    by_cases hdef : defKw.isPrefixOf (pyStrip l0) = true
    · have e1 : indentFix s = joinNL (l0 :: ls.map fixLine) := by
        rw [indentFix_of_split hsp, if_pos hdef]
      have hnl : ∀ l ∈ l0 :: ls.map fixLine, '\n' ∉ l := by
        intro l hl
        rcases List.mem_cons.mp hl with rfl | hl2
        · exact splitNL_no_nl (hsp ▸ List.mem_cons_self _ _)
        · obtain ⟨l1, hl1, rfl⟩ := List.mem_map.mp hl2
          exact noNL_fixLine (splitNL_no_nl (hsp ▸ List.mem_cons_of_mem _ hl1))
      have hsp2 : splitNL (indentFix s) = l0 :: ls.map fixLine := by
        rw [e1]
        exact splitNL_joinNL (by simp) hnl
      rw [indentFix_of_split hsp2, if_pos hdef, e1]
      have hmap : (ls.map fixLine).map fixLine = ls.map fixLine := by
        rw [List.map_map]
        refine List.map_congr_left ?_
        intro l hl
        exact fixLine_idem l
      rw [hmap]
    · have e1 : indentFix s = s := by rw [indentFix_of_split hsp, if_neg hdef]
      rw [e1, indentFix_of_split hsp, if_neg hdef]

theorem fenceStrip_id_of_no {z : List Char} (h1 : hasSub tagPy z = false)
    (h2 : hasSub tagBt z = false) : fenceStrip z = z := by
  rw [fenceStrip, if_neg (by simp [h1]), if_neg (by simp [h2])]

theorem cleanLlmResponse_idem (x : List Char) :
    cleanLlmResponse (cleanLlmResponse x) = cleanLlmResponse x := by
  have hno : ¬ Occ tagBt (fenceStrip x) := no_occ_fenceStrip x
  have hno2 : ¬ Occ tagBt (cleanLlmResponse x) := by
    rw [cleanLlmResponse]
    exact no_occ_indentFix hno
  have hnoPy : ¬ Occ tagPy (cleanLlmResponse x) := fun h => hno2 (occ_tagBt_of_tagPy h)
  have h1 : hasSub tagPy (cleanLlmResponse x) = false :=
    (hasSub_false_iff tagPy_ne_nil).mpr hnoPy
  have h2 : hasSub tagBt (cleanLlmResponse x) = false :=
    (hasSub_false_iff tagBt_ne_nil).mpr hno2
  calc cleanLlmResponse (cleanLlmResponse x)
      = indentFix (fenceStrip (cleanLlmResponse x)) := rfl
    _ = indentFix (cleanLlmResponse x) := by rw [fenceStrip_id_of_no h1 h2]
    _ = indentFix (indentFix (fenceStrip x)) := rfl
    _ = indentFix (fenceStrip x) := indentFix_idem _
    _ = cleanLlmResponse x := rfl

/- ### Lemmas: characterizing the fence stripper by decomposition -/

theorem fenceStrip_tagged_closed {x : List Char} {a e : Nat}
    (hpy : pyFind tagPy x 0 = some a) (hbt : pyFind tagBt x (a + 9) = some e) :
    fenceStrip x = pyStrip (pySlice x (a + 9) e) := by
  have h1 : hasSub tagPy x = true := by rw [hasSub, hpy]; rfl
  rw [fenceStrip, if_pos h1, hpy]
  show (match pyFind tagBt x ((some a).getD 0 + 9) with
        | some e => pyStrip (pySlice x ((some a).getD 0 + 9) e)
        | none => pyStrip (x.drop ((some a).getD 0 + 9))) = pyStrip (pySlice x (a + 9) e)
  simp only [Option.getD_some]
  rw [hbt]

theorem fenceStrip_tagged_open {x : List Char} {a : Nat}
    (hpy : pyFind tagPy x 0 = some a) (hbt : pyFind tagBt x (a + 9) = none) :
    fenceStrip x = pyStrip (x.drop (a + 9)) := by
  have h1 : hasSub tagPy x = true := by rw [hasSub, hpy]; rfl
  rw [fenceStrip, if_pos h1, hpy]
  show (match pyFind tagBt x ((some a).getD 0 + 9) with
        | some e => pyStrip (pySlice x ((some a).getD 0 + 9) e)
        | none => pyStrip (x.drop ((some a).getD 0 + 9))) = pyStrip (x.drop (a + 9))
  simp only [Option.getD_some]
  rw [hbt]

theorem fenceStrip_generic_closed {x : List Char} {a e : Nat}
    (hno : hasSub tagPy x = false) (hbt0 : pyFind tagBt x 0 = some a)
    (hbt : pyFind tagBt x (a + 3) = some e) :
    fenceStrip x = pyStrip (pySlice x (a + 3) e) := by
  have h2 : hasSub tagBt x = true := by rw [hasSub, hbt0]; rfl
  rw [fenceStrip, if_neg (by simp [hno]), if_pos h2, hbt0]
  show (match pyFind tagBt x ((some a).getD 0 + 3) with
        | some e => pyStrip (pySlice x ((some a).getD 0 + 3) e)
        | none => pyStrip (x.drop ((some a).getD 0 + 3))) = pyStrip (pySlice x (a + 3) e)
  simp only [Option.getD_some]
  rw [hbt]

theorem fenceStrip_generic_open {x : List Char} {a : Nat}
    (hno : hasSub tagPy x = false) (hbt0 : pyFind tagBt x 0 = some a)
    (hbt : pyFind tagBt x (a + 3) = none) :
    fenceStrip x = pyStrip (x.drop (a + 3)) := by
  have h2 : hasSub tagBt x = true := by rw [hasSub, hbt0]; rfl
  rw [fenceStrip, if_neg (by simp [hno]), if_pos h2, hbt0]
  show (match pyFind tagBt x ((some a).getD 0 + 3) with
        | some e => pyStrip (pySlice x ((some a).getD 0 + 3) e)
        | none => pyStrip (x.drop ((some a).getD 0 + 3))) = pyStrip (x.drop (a + 3))
  simp only [Option.getD_some]
  rw [hbt]

theorem tagPy_len : tagPy.length = 9 := by decide

theorem tagBt_len : tagBt.length = 3 := by decide

theorem drop_pre_tag {pre tag rest : List Char} :
    (pre ++ (tag ++ rest)).drop (pre.length + tag.length) = rest := by
  rw [← List.drop_drop]
  rw [List.drop_left, List.drop_left]

theorem find_at_decomp {p pre rest : List Char} (hp : p ≠ [])
    (hmin : ∀ k, k < pre.length → ¬ p <+: ((pre ++ (p ++ rest)).drop k)) :
    pyFind p (pre ++ (p ++ rest)) 0 = some pre.length := by
  refine pyFind_eq_some hp (by omega) ?_ ?_
  · rw [List.drop_left]
    exact ⟨rest, rfl⟩
  · intro k hk0 hk
    exact hmin k hk

theorem drop_tagged {pre mid rest : List Char} :
    (pre ++ (tagPy ++ (mid ++ rest))).drop (pre.length + 9) = mid ++ rest := by
  have h9 : (9 : Nat) = tagPy.length := by decide
  rw [h9]
  exact drop_pre_tag

theorem drop_generic {pre mid rest : List Char} :
    (pre ++ (tagBt ++ (mid ++ rest))).drop (pre.length + 3) = mid ++ rest := by
  have h3 : (3 : Nat) = tagBt.length := by decide
  rw [h3]
  exact drop_pre_tag

theorem find_close_tagged {pre mid post : List Char}
    (hmid : ∀ k, k < pre.length + 9 + mid.length → pre.length + 9 ≤ k →
      ¬ tagBt <+: ((pre ++ (tagPy ++ (mid ++ (tagBt ++ post)))).drop k)) :
    pyFind tagBt (pre ++ (tagPy ++ (mid ++ (tagBt ++ post)))) (pre.length + 9) =
      some (pre.length + 9 + mid.length) := by
  refine pyFind_eq_some tagBt_ne_nil (by omega) ?_ ?_
  · rw [← List.drop_drop, drop_tagged, List.drop_left]
    exact ⟨post, rfl⟩
  · intro k hk1 hk2
    exact hmid k hk2 hk1

theorem find_close_generic {pre mid post : List Char}
    (hmid : ∀ k, k < pre.length + 3 + mid.length → pre.length + 3 ≤ k →
      ¬ tagBt <+: ((pre ++ (tagBt ++ (mid ++ (tagBt ++ post)))).drop k)) :
    pyFind tagBt (pre ++ (tagBt ++ (mid ++ (tagBt ++ post)))) (pre.length + 3) =
      some (pre.length + 3 + mid.length) := by
  refine pyFind_eq_some tagBt_ne_nil (by omega) ?_ ?_
  · rw [← List.drop_drop, drop_generic, List.drop_left]
    exact ⟨post, rfl⟩
  · intro k hk1 hk2
    exact hmid k hk2 hk1

theorem find_none_of_bounded {s : List Char} {start : Nat}
    (h : ∀ k, k < s.length → start ≤ k → ¬ tagBt <+: s.drop k) :
    pyFind tagBt s start = none := by
  cases hf : pyFind tagBt s start with
  | none => rfl
  | some e =>
    exfalso
    obtain ⟨hle, hpre, _⟩ := pyFind_some hf
    rcases Nat.lt_or_ge e s.length with hlt | hge
    · exact h e hlt hle hpre
    · rw [List.drop_eq_nil_of_le hge] at hpre
      exact tagBt_ne_nil (List.prefix_nil.mp hpre)

/- ### Lemmas: module-namespace execution (claim C8) -/

theorem envGet_envSet (env : Env) (y x : String) (v : Int) :
    envGet (envSet env y v) x = if (x == y) = true then some v else envGet env x := by
  cases h : x == y <;> simp [envGet, envSet, List.lookup, h]

theorem execModule_lookup {mod : List TStmt} (hall : allUncond mod = true)
    (env : Env) (x : String) :
    envGet (execModule mod env) x =
      if assignsUncond mod x = true then envGet (execModule mod []) x
      else envGet env x := by
  induction mod generalizing env with
  | nil => simp [execModule, assignsUncond]
  | cons s mod ih =>
    cases s with
    | assign y v =>
      have hall2 : allUncond mod = true := by
        simpa [allUncond] using hall
      have hstep : ∀ e : Env, execModule (TStmt.assign y v :: mod) e =
          execModule mod (envSet e y v) := by
        intro e
        simp [execModule, execStmt]
      rw [hstep env, hstep [], ih hall2 (envSet env y v), ih hall2 (envSet [] y v)]
      have hcond : assignsUncond (TStmt.assign y v :: mod) x =
          ((y == x) || assignsUncond mod x) := by
        simp [assignsUncond]
      rw [hcond]
      by_cases hmod : assignsUncond mod x = true
      · simp [hmod]
      · have hmod2 : assignsUncond mod x = false := Bool.eq_false_iff.mpr hmod
        by_cases hyx : y = x
        · subst hyx
          simp [hmod2, envGet_envSet]
        · have h1 : (y == x) = false := by
            simp [hyx]
          have h2 : (x == y) = false := by
            simp only [beq_eq_false_iff_ne, ne_eq]
            exact fun h => hyx h.symm
          simp [hmod2, h1, h2, envGet_envSet]
    | assignIfAbsent y v =>
      simp [allUncond] at hall

theorem execStmt_agree {e1 e2 : Env} {x : String} (s : TStmt)
    (h : envGet e1 x = envGet e2 x) :
    envGet (execStmt e1 s) x = envGet (execStmt e2 s) x := by
  cases s with
  | assign y v =>
    rw [execStmt, execStmt, envGet_envSet, envGet_envSet]
    cases hxy : (x == y) <;> simp [h]
  | assignIfAbsent y v =>
    show envGet (match envGet e1 y with
        | some _ => e1
        | none => envSet e1 y v) x =
      envGet (match envGet e2 y with
        | some _ => e2
        | none => envSet e2 y v) x
    by_cases hxy : x = y
    · subst hxy
      cases hv : envGet e1 x with
      | some w =>
        have hv2 : envGet e2 x = some w := h.symm.trans hv
        simp only [hv2]
        exact hv
      | none =>
        have hv2 : envGet e2 x = none := h.symm.trans hv
        simp only [hv2]
        show envGet (envSet e1 x v) x = envGet (envSet e2 x v) x
        rw [envGet_envSet, envGet_envSet]
        simp
    · have hbeq : (x == y) = false := by
        simp only [beq_eq_false_iff_ne, ne_eq]
        exact hxy
      cases hv1 : envGet e1 y <;> cases hv2 : envGet e2 y <;>
        simp [envGet_envSet, hbeq, h]

theorem execModule_agree (mod : List TStmt) {e1 e2 : Env} {x : String}
    (h : envGet e1 x = envGet e2 x) :
    envGet (execModule mod e1) x = envGet (execModule mod e2) x := by
  induction mod generalizing e1 e2 with
  | nil => exact h
  | cons s mod ih =>
    have hstep : ∀ e : Env, execModule (s :: mod) e = execModule mod (execStmt e s) :=
      fun _ => rfl
    rw [hstep e1, hstep e2]
    exact ih (execStmt_agree s h)

theorem execModule_uncond {mod : List TStmt} {x : String}
    (h : assignsUncond mod x = true) (e1 e2 : Env) :
    envGet (execModule mod e1) x = envGet (execModule mod e2) x := by
  induction mod generalizing e1 e2 with
  | nil => simp [assignsUncond] at h
  | cons s mod ih =>
    have hstep : ∀ e : Env, execModule (s :: mod) e = execModule mod (execStmt e s) :=
      fun _ => rfl
    rw [hstep e1, hstep e2]
    cases s with
    | assign y v =>
      by_cases hyx : y = x
      · subst hyx
        refine execModule_agree mod ?_
        show envGet (envSet e1 y v) y = envGet (envSet e2 y v) y
        rw [envGet_envSet, envGet_envSet]
        simp
      · have hbeq : (y == x) = false := by
          simp only [beq_eq_false_iff_ne, ne_eq]
          exact hyx
        have h2 : assignsUncond mod x = true := by
          simpa [assignsUncond, hbeq] using h
        exact ih h2 _ _
    | assignIfAbsent y v =>
      have h2 : assignsUncond mod x = true := by
        simpa [assignsUncond] using h
      exact ih h2 _ _

/- ### The claims -/

/-- Claim C1, amended: the result classifier is exactly the ordered decision
table of §4.5 with first match wins, and it is total — but its range has
EIGHT verdict labels, not six: rows 3 and 4 of the table each choose between
two labels.  Conjuncts: (1) every output is one of the eight labels; (2) when
testsPassed is false the verdict is the failed label regardless of coverage;
(3) on the values the harness feeds it (branch coverage computed by
`branchCoveragePct`), `interpret_coverage` agrees with the spec's table
`specClassify`, where the distinguished "full" value stands for zero declared
branches and is treated identically to 100. -/
theorem c1_classifier_table :
    (∀ lineCov branchCov : ℚ, ∀ numBranches : Nat, ∀ testsPassed : Bool,
      interpretCoverage lineCov branchCov numBranches testsPassed ∈ verdictLabels) ∧
    (∀ lineCov branchCov : ℚ, ∀ numBranches : Nat,
      interpretCoverage lineCov branchCov numBranches false = msgFailed) ∧
    (∀ testsPassed : Bool, ∀ lineCov : ℚ, ∀ coveredBranches numBranches : Nat,
      interpretCoverage lineCov (branchCoveragePct coveredBranches numBranches)
          numBranches testsPassed =
        verdictLabel (specClassify testsPassed lineCov
          (toBranchCov coveredBranches numBranches) (decide (0 < numBranches)))) := by
  refine ⟨?_, ?_, ?_⟩
  · intro lc bc nb tp
    rw [interpretCoverage]
    split_ifs <;> simp [verdictLabels]
  · intro lc bc nb
    rw [interpretCoverage, if_pos rfl]
  · intro tp lc cb nb
    cases tp with
    | false => rw [interpretCoverage, if_pos rfl, specClassify, if_pos rfl, verdictLabel]
    | true =>
      rcases Nat.eq_zero_or_pos nb with hnb | hnb
      · subst hnb
        have hbc : branchCoveragePct cb 0 = 100 := by
          rw [branchCoveragePct, if_neg (by omega)]
        have htb : toBranchCov cb 0 = BranchCov.full := by
          rw [toBranchCov, if_pos rfl]
        have hn80 : ¬ ((100 : ℚ) < 80) := by norm_num
        have hn60 : ¬ ((100 : ℚ) < 60) := by norm_num
        have hy90 : (90 : ℚ) ≤ 100 := by norm_num
        have hy70 : (70 : ℚ) ≤ 100 := by norm_num
        have hy50 : (50 : ℚ) ≤ 100 := by norm_num
        rw [hbc, htb]
        by_cases h100 : lc = 100 <;> by_cases h90 : (90 : ℚ) ≤ lc <;>
          by_cases h70 : (70 : ℚ) ≤ lc <;> by_cases h50 : (50 : ℚ) ≤ lc <;>
          simp [interpretCoverage, specClassify, verdictLabel, bcIsFull, bcLt,
            h100, h90, h70, h50, hn80, hn60, hy90, hy70, hy50]
      · have hnb0 : nb ≠ 0 := by omega
        have htb : toBranchCov cb nb = BranchCov.pct (branchCoveragePct cb nb) := by
          rw [toBranchCov, if_neg hnb0]
        have hn80 : ¬ ((100 : ℚ) < 80) := by norm_num
        have hn60 : ¬ ((100 : ℚ) < 60) := by norm_num
        have hy90 : (90 : ℚ) ≤ 100 := by norm_num
        have hy70 : (70 : ℚ) ≤ 100 := by norm_num
        have hy50 : (50 : ℚ) ≤ 100 := by norm_num
        rw [htb]
        by_cases h100 : lc = 100 <;> by_cases hq : branchCoveragePct cb nb = 100 <;>
          by_cases h90 : (90 : ℚ) ≤ lc <;> by_cases h80 : branchCoveragePct cb nb < 80 <;>
          by_cases h70 : (70 : ℚ) ≤ lc <;> by_cases h60 : branchCoveragePct cb nb < 60 <;>
          by_cases h50 : (50 : ℚ) ≤ lc <;>
          simp [interpretCoverage, specClassify, verdictLabel, bcIsFull, bcLt,
            h100, hq, h90, h80, h70, h60, h50, hnb, hnb0, hn80, hn60, hy90, hy70, hy50]

/-- Claim C1, counterexample to "six verdict labels": eight concrete inputs on
which `interpret_coverage` produces eight pairwise-distinct labels, so the
classifier's range cannot lie in any six-element label set. -/
theorem c1_counterexample :
    ([interpretCoverage 100 100 0 false, interpretCoverage 100 100 0 true,
      interpretCoverage 95 50 2 true, interpretCoverage 95 90 2 true,
      interpretCoverage 75 50 2 true, interpretCoverage 75 70 2 true,
      interpretCoverage 60 100 2 true, interpretCoverage 30 100 2 true].dedup).length = 8 := by
  decide

/-- Claim C2, amended: only the evaluator's `run_tests` path bounds candidate
execution (timeout 30) and maps `TimeoutExpired` to an error record distinct
from every normal (finished) record; the coverage runner's two pytest
invocations, which also execute candidate code, pass no timeout at all. -/
theorem c2_timeout_paths :
    runTestsCall.timeoutSeconds = some 30 ∧
    runTestsCall.runsCandidateCode = true ∧
    humanevalPytestCall.timeoutSeconds = none ∧
    appsPytestCall.timeoutSeconds = none ∧
    (∀ returncode : Int, ∀ stdout stderr : String,
      runTestsRecord ProcResult.timedOut ≠
        runTestsRecord (ProcResult.completed returncode stdout stderr)) := by
  refine ⟨rfl, rfl, rfl, rfl, ?_⟩
  intro rc out err h
  simp [runTestsRecord] at h

/-- Claim C2, counterexample: of the three harness subprocess invocations that
run candidate code, two (the coverage runner's humaneval and apps pytest
calls) have no wall-clock bound, refuting "this holds for every execution
path of the harness that runs candidate code". -/
theorem c2_counterexample :
    (harnessCandidateCalls.filter
      (fun c => c.runsCandidateCode && c.timeoutSeconds.isNone)).length = 2 := by
  decide

/-- Claim C3, amended: when the coverage file was never produced, the record
marks the coverage data as not generated (interpretation string) and reports
branch coverage as absent (the source's `'N/A'`, embedded as `none`) — but its
`line_coverage` field holds the number 0, not an absent marker. -/
theorem c3_no_coverage_record :
    humanevalNoCoverageRecord.interpretation = covNotGenerated ∧
    humanevalNoCoverageRecord.branch_coverage = none ∧
    humanevalNoCoverageRecord.line_coverage = 0 ∧
    humanevalNoCoverageRecord.tests_passed = "0/0 (Error)" ∧
    (∀ passedTests totalTests : Nat,
      (appsNoCoverageRecord passedTests totalTests).interpretation = covNotGenerated ∧
      (appsNoCoverageRecord passedTests totalTests).branch_coverage = none ∧
      (appsNoCoverageRecord passedTests totalTests).line_coverage = 0) :=
  ⟨rfl, rfl, rfl, rfl, fun _ _ => ⟨rfl, rfl, rfl⟩⟩

/-- Claim C3, counterexample: both no-coverage records carry the literal zero
line-coverage value, refuting "marks the CoverageSample as absent, not as a
zero coverage value". -/
theorem c3_counterexample :
    humanevalNoCoverageRecord.line_coverage = 0 ∧
    (appsNoCoverageRecord 2 3).line_coverage = 0 :=
  ⟨rfl, rfl⟩

/-- Claim C5, amended: the coverage runner's normalizer `clean_llm_response`
is idempotent; the evaluator's `extract_code` is not a normalizer on which
idempotence can even hold — it strips a tagged fence once, but re-applying it
to its own output (which no longer contains a \`\`\`python fence) raises
NameError. -/
theorem c5_normalizer_idempotent :
    (∀ x : List Char, cleanLlmResponse (cleanLlmResponse x) = cleanLlmResponse x) ∧
    extractCode ("```python\nfoo\n```").toList = Except.ok (("foo").toList) ∧
    extractCode (("foo").toList) = Except.error PyErr.nameError :=
  ⟨cleanLlmResponse_idem, by rfl, by rfl⟩

/-- Claim C5, counterexample: at `x = "\`\`\`python\nfoo\n\`\`\`"` one
application of `extract_code` succeeds with `"foo"` while the second
application crashes, so `normalize (normalize x) = normalize x` fails for the
evaluator's normalizer. -/
theorem c5_counterexample :
    exIsOk (extractCode ("```python\nfoo\n```").toList) = true ∧
    exIsOk ((extractCode ("```python\nfoo\n```").toList).bind extractCode) = false := by
  constructor
  · rfl
  · rfl

/-- Claim C6: branch coverage is `covered / total * 100` exactly when the
total is positive; with zero declared branches the value is the constant 100
(no division is reached — the source guard `if num_branches > 0` selects the
constant branch), and the classifier treats that value identically to the
literal 100 for every covered count. -/
theorem c6_branch_coverage :
    (∀ coveredBranches n : Nat,
      branchCoveragePct coveredBranches (n + 1) =
        (coveredBranches : ℚ) / ((n : ℚ) + 1) * 100) ∧
    (∀ coveredBranches : Nat, branchCoveragePct coveredBranches 0 = 100) ∧
    (∀ lineCov : ℚ, ∀ coveredBranches : Nat, ∀ testsPassed : Bool,
      interpretCoverage lineCov (branchCoveragePct coveredBranches 0) 0 testsPassed =
        interpretCoverage lineCov 100 0 testsPassed) := by
  refine ⟨?_, ?_, ?_⟩
  · intro c n
    rw [branchCoveragePct, if_pos (by omega)]
    push_cast
    ring
  · intro c
    rw [branchCoveragePct, if_neg (by omega)]
  · intro lc c tp
    rw [branchCoveragePct, if_neg (by omega)]

/-- Claim C10: for every input containing \`\`\` but not \`\`\`python,
`extract_code` raises an uncaught NameError — its generic-fence `elif` tests
`"```" in lower_llm_response`, and `lower_llm_response` is assigned only in
the \`\`\`python branch.  (In the embedding every input without \`\`\`python
hits the error path; the second hypothesis restates the claim's scope.) -/
theorem c10_extract_code_name_error (r : List Char)
    (h1 : hasSub tagPy r = false) (_h2 : hasSub tagBt r = true) :
    extractCode r = Except.error PyErr.nameError := by
  rw [extractCode, if_neg (by simp [h1])]

theorem c10_witness :
    extractCode (("```\nprint(1)\n```").toList) = Except.error PyErr.nameError :=
  c10_extract_code_name_error _ (by decide) (by decide)

/-- Claim C4, amended: the fence-stripping stage of the coverage runner's
normalizer returns exactly the fence's interior, trimmed: it prefers a
\`\`\`python-tagged fence (conjunct 2: first tag at `pre.length`, first
closing \`\`\` after it at the end of `mid`, result `strip mid`), takes
everything to end of text when no closing fence exists (conjunct 3), falls
back to the first generic fence (conjunct 4), likewise taking everything to
end of text when the generic fence has no closing fence (conjunct 5), and
passes fence-less text through completely unchanged (conjunct 6).  The
normalizer's final output is that interior further transformed by the
reindentation pass (conjunct 1), so it is not always exactly the trimmed
interior. -/
theorem c4_fence_stripping :
    (∀ x : List Char, cleanLlmResponse x = indentFix (fenceStrip x)) ∧
    (∀ pre mid post : List Char,
      (∀ k, k < pre.length →
        ¬ tagPy <+: ((pre ++ (tagPy ++ (mid ++ (tagBt ++ post)))).drop k)) →
      (∀ k, k < pre.length + 9 + mid.length → pre.length + 9 ≤ k →
        ¬ tagBt <+: ((pre ++ (tagPy ++ (mid ++ (tagBt ++ post)))).drop k)) →
      fenceStrip (pre ++ (tagPy ++ (mid ++ (tagBt ++ post)))) = pyStrip mid) ∧
    (∀ pre mid : List Char,
      (∀ k, k < pre.length → ¬ tagPy <+: ((pre ++ (tagPy ++ mid)).drop k)) →
      (∀ k, k < (pre ++ (tagPy ++ mid)).length → pre.length + 9 ≤ k →
        ¬ tagBt <+: ((pre ++ (tagPy ++ mid)).drop k)) →
      fenceStrip (pre ++ (tagPy ++ mid)) = pyStrip mid) ∧
    (∀ pre mid post : List Char,
      hasSub tagPy (pre ++ (tagBt ++ (mid ++ (tagBt ++ post)))) = false →
      (∀ k, k < pre.length →
        ¬ tagBt <+: ((pre ++ (tagBt ++ (mid ++ (tagBt ++ post)))).drop k)) →
      (∀ k, k < pre.length + 3 + mid.length → pre.length + 3 ≤ k →
        ¬ tagBt <+: ((pre ++ (tagBt ++ (mid ++ (tagBt ++ post)))).drop k)) →
      fenceStrip (pre ++ (tagBt ++ (mid ++ (tagBt ++ post)))) = pyStrip mid) ∧
    (∀ pre mid : List Char,
      hasSub tagPy (pre ++ (tagBt ++ mid)) = false →
      (∀ k, k < pre.length → ¬ tagBt <+: ((pre ++ (tagBt ++ mid)).drop k)) →
      (∀ k, k < (pre ++ (tagBt ++ mid)).length → pre.length + 3 ≤ k →
        ¬ tagBt <+: ((pre ++ (tagBt ++ mid)).drop k)) →
      fenceStrip (pre ++ (tagBt ++ mid)) = pyStrip mid) ∧
    (∀ x : List Char, hasSub tagBt x = false → fenceStrip x = x) := by
  refine ⟨fun _ => rfl, ?_, ?_, ?_, ?_, ?_⟩
  · intro pre mid post h1 h2
    have hpy := find_at_decomp tagPy_ne_nil h1
    have hbt := find_close_tagged h2
    rw [fenceStrip_tagged_closed hpy hbt]
    congr 1
    rw [pySlice]
    have harith : pre.length + 9 + mid.length - (pre.length + 9) = mid.length := by omega
    rw [harith, drop_tagged, List.take_left]
  · intro pre mid h1 h2
    have hpy := find_at_decomp tagPy_ne_nil h1
    have hbt := find_none_of_bounded h2
    rw [fenceStrip_tagged_open hpy hbt]
    congr 1
    have h9 : (9 : Nat) = tagPy.length := by decide
    rw [h9]
    exact drop_pre_tag
  · intro pre mid post hno h1 h2
    have hbt0 := find_at_decomp tagBt_ne_nil h1
    have hbt := find_close_generic h2
    rw [fenceStrip_generic_closed hno hbt0 hbt]
    congr 1
    rw [pySlice]
    have harith : pre.length + 3 + mid.length - (pre.length + 3) = mid.length := by omega
    rw [harith, drop_generic, List.take_left]
  · intro pre mid hno h1 h2
    have hbt0 := find_at_decomp tagBt_ne_nil h1
    have hbt := find_none_of_bounded h2
    rw [fenceStrip_generic_open hno hbt0 hbt]
    congr 1
    have h3 : (3 : Nat) = tagBt.length := by decide
    rw [h3]
    exact drop_pre_tag
  · intro x hbt
    have hpy : hasSub tagPy x = false := by
      cases hp : hasSub tagPy x with
      | false => rfl
      | true =>
        exfalso
        have hocc := occ_tagBt_of_tagPy ((hasSub_iff_occ tagPy_ne_nil).mp hp)
        have hcontra := (hasSub_iff_occ tagBt_ne_nil).mpr hocc
        rw [hbt] at hcontra
        exact Bool.false_ne_true hcontra
    exact fenceStrip_id_of_no hpy hbt

/-- Claim C4, counterexample: for the closed tagged fence
`"\`\`\`python\ndef f():\nreturn 1\n\`\`\`"` the trimmed interior is
`"def f():\nreturn 1"`, but the normalizer's output is the reindented
`"def f():\n    return 1"` — not exactly the fence's interior (trimmed). -/
theorem c4_counterexample :
    pyFind tagPy (("```python\ndef f():\nreturn 1\n```").toList) 0 = some 0 ∧
    pyFind tagBt (("```python\ndef f():\nreturn 1\n```").toList) 9 = some 28 ∧
    pyStrip (pySlice (("```python\ndef f():\nreturn 1\n```").toList) 9 28) =
      ("def f():\nreturn 1").toList ∧
    (cleanLlmResponse (("```python\ndef f():\nreturn 1\n```").toList) ==
      pyStrip (pySlice (("```python\ndef f():\nreturn 1\n```").toList) 9 28)) = false := by
  refine ⟨?_, ?_, ?_, ?_⟩ <;> decide

theorem c4_witness :
    fenceStrip ((("Intro:\n").toList) ++
        (tagPy ++ ((("\nprint(1)\n").toList) ++ (tagBt ++ ("\nbye").toList)))) =
      pyStrip (("\nprint(1)\n").toList) ∧
    fenceStrip ((("Intro:\n").toList) ++ (tagBt ++ ("\nprint(2)").toList)) =
      pyStrip (("\nprint(2)").toList) :=
  ⟨c4_fence_stripping.2.1 (("Intro:\n").toList) (("\nprint(1)\n").toList)
      (("\nbye").toList) (by decide) (by decide),
   c4_fence_stripping.2.2.2.2.1 (("Intro:\n").toList) (("\nprint(2)").toList)
      (by decide) (by decide) (by decide)⟩

/-- Claim C7, amended: the reindentation fires when the FIRST PHYSICAL line
of the (fence-stripped) text, stripped of whitespace, is a function
definition header — not the first non-blank line.  When it fires, the output
lines are exactly the header followed by `fixLine` of each body line, so
blank lines are unchanged in count and position (a blank line maps to itself
and a non-blank line stays non-blank), and every non-blank body line of the
output starts with one indentation level (four spaces or a tab). -/
theorem c7_reindentation :
    (∀ code : List Char, cleanLlmResponse code = indentFix (fenceStrip code)) ∧
    (∀ x l0 : List Char, ∀ ls : List (List Char),
      splitNL x = l0 :: ls → defKw.isPrefixOf (pyStrip l0) = true →
      indentFix x = joinNL (l0 :: ls.map fixLine) ∧
      splitNL (indentFix x) = l0 :: ls.map fixLine ∧
      ∀ l ∈ ls,
        ((pyStrip l).isEmpty = true → fixLine l = l) ∧
        ((pyStrip l).isEmpty = false →
          (indentKw.isPrefixOf (fixLine l) || tabKw.isPrefixOf (fixLine l)) = true) ∧
        (pyStrip (fixLine l)).isEmpty = (pyStrip l).isEmpty) := by
  refine ⟨fun _ => rfl, ?_⟩
  intro x l0 ls hsp hdef
  have e1 : indentFix x = joinNL (l0 :: ls.map fixLine) := by
    rw [indentFix_of_split hsp, if_pos hdef]
  have hnl : ∀ l ∈ l0 :: ls.map fixLine, '\n' ∉ l := by
    intro l hl
    rcases List.mem_cons.mp hl with rfl | hl2
    · exact splitNL_no_nl (hsp ▸ List.mem_cons_self _ _)
    · obtain ⟨l1, hl1, rfl⟩ := List.mem_map.mp hl2
      exact noNL_fixLine (splitNL_no_nl (hsp ▸ List.mem_cons_of_mem _ hl1))
  refine ⟨e1, by rw [e1]; exact splitNL_joinNL (by simp) hnl, ?_⟩
  intro l hl
  refine ⟨?_, ?_, ?_⟩
  · intro hb
    rw [fixLine, if_pos hb]
  · intro hb
    rw [fixLine, if_neg (by simp [hb])]
    by_cases h2 : (indentKw.isPrefixOf l || tabKw.isPrefixOf l) = true
    · rw [if_pos h2]
      exact h2
    · rw [if_neg h2, indentKw_pfx_self]
      rfl
  · by_cases hb : (pyStrip l).isEmpty = true
    · rw [fixLine, if_pos hb]
    · rw [fixLine, if_neg hb]
      by_cases h2 : (indentKw.isPrefixOf l || tabKw.isPrefixOf l) = true
      · rw [if_pos h2]
      · rw [if_neg h2, pyStrip_indent, pyStrip_idem]

/-- Claim C7, counterexample: on `"\ndef f():\nreturn 1"` the first NON-BLANK
line is a function header, yet the normalizer returns the text unchanged (the
source tests only `lines[0]`, the first physical line, which is blank here),
leaving the body line `return 1` unindented. -/
theorem c7_counterexample :
    firstNonBlankIsDef (("\ndef f():\nreturn 1").toList) = true ∧
    cleanLlmResponse (("\ndef f():\nreturn 1").toList) = ("\ndef f():\nreturn 1").toList ∧
    tailLinesIndented (cleanLlmResponse (("\ndef f():\nreturn 1").toList)) = false := by
  refine ⟨?_, ?_, ?_⟩ <;> decide

theorem c7_witness :
    indentFix (("def f():\nreturn 1").toList) =
      joinNL ((("def f():").toList) :: ([("return 1").toList]).map fixLine) :=
  (c7_reindentation.2 (("def f():\nreturn 1").toList) (("def f():").toList)
    [("return 1").toList] (by decide) (by decide)).1

/-- Claim C8, amended: the generated driver re-executes the candidate's top
level over the module's retained dict (`importlib.reload`) before each test
case.  Any global the top level unconditionally assigns — such as a counter
incremented per invocation — is therefore reset to its initial value, exactly
as a fresh namespace copy would give, for every prior namespace state and
for every module, including modules that mix unconditional assignments with
guarded initializations.  The namespace is NOT a fresh copy, though: names
the top-level code does not rebind (conditionally initialized caches, globals
created during an earlier case) persist — see the counterexample. -/
theorem c8_reload_reset (mod : List TStmt) (env : Env) (x : String)
    (h : assignsUncond mod x = true) :
    envGet (reloadModule mod env) x = envGet (freshModule mod) x :=
  execModule_uncond h env []

/-- Claim C8, counterexample: a candidate whose top level initializes `cache`
only when absent (`if 'cache' not in globals(): cache = 0`), mutated to 5 by
an earlier test case, keeps the mutated value across `importlib.reload`,
while a freshly re-initialized namespace would hold 0 — mutated state leaks
into the later case. -/
theorem c8_counterexample :
    (envGet (reloadModule [TStmt.assignIfAbsent ("cache") 0] [(("cache"), 5)]) ("cache") ==
      envGet (freshModule [TStmt.assignIfAbsent ("cache") 0]) ("cache")) = false := by
  decide

theorem c8_witness :
    envGet (reloadModule [TStmt.assignIfAbsent ("cache") 0, TStmt.assign ("counter") 0]
        [(("counter"), 7), (("cache"), 5)]) ("counter") =
      envGet (freshModule [TStmt.assignIfAbsent ("cache") 0, TStmt.assign ("counter") 0])
        ("counter") :=
  c8_reload_reset _ _ _ (by decide)

/- ### Lemmas: rendered statements and the line-scanning detector (claim C9) -/

theorem getLastD_append_ne {a b : List Char} (hb : b ≠ []) (d : Char) :
    (a ++ b).getLastD d = b.getLastD d := by
  obtain h | ⟨t, c, rfl⟩ := List.eq_nil_or_concat b
  · exact absurd h hb
  · rw [List.concat_eq_append, ← List.append_assoc]
    simp

theorem getLastD_irrel {l : List Char} (hl : l ≠ []) (d d2 : Char) :
    l.getLastD d = l.getLastD d2 := by
  obtain h | ⟨t, c, rfl⟩ := List.eq_nil_or_concat l
  · exact absurd h hl
  · simp

theorem headD_append_ne {a b : List Char} (ha : a ≠ []) (d : Char) :
    (a ++ b).headD d = a.headD d := by
  cases a with
  | nil => exact absurd rfl ha
  | cons c t => rfl

theorem joinNL_ne_nil_head {l : List Char} {ls : List (List Char)} (hl : l ≠ []) :
    joinNL (l :: ls) ≠ [] := by
  cases ls with
  | nil => exact hl
  | cons l2 ls2 =>
    rw [joinNL_cons (by simp)]
    cases l with
    | nil => exact absurd rfl hl
    | cons c t => simp

theorem joinNL_headD {l : List Char} {ls : List (List Char)} (hl : l ≠ []) (d : Char) :
    (joinNL (l :: ls)).headD d = l.headD d := by
  cases ls with
  | nil => rfl
  | cons l2 ls2 =>
    rw [joinNL_cons (by simp)]
    exact headD_append_ne hl d

theorem joinNL_append {a : List (List Char)} (b : List (List Char))
    (ha : a ≠ []) (hb : b ≠ []) :
    joinNL (a ++ b) = joinNL a ++ '\n' :: joinNL b := by
  induction a with
  | nil => exact absurd rfl ha
  | cons l a ih =>
    cases a with
    | nil =>
      rw [List.cons_append, List.nil_append, joinNL_cons hb]
      rfl
    | cons l2 a2 =>
      have h1 : (l :: l2 :: a2) ++ b = l :: ((l2 :: a2) ++ b) := rfl
      rw [h1, joinNL_cons (by simp : (l2 :: a2) ++ b ≠ []), ih (by simp)]
      rw [joinNL_cons (by simp : (l2 :: a2) ≠ ([] : List (List Char)))]
      rw [List.append_assoc]
      rfl

theorem getLastD_cons_notspace {c : Char} {t : List Char}
    (h : pySpace (t.getLastD ' ') = false) (ht : t ≠ []) (d : Char) :
    pySpace ((c :: t).getLastD d) = false := by
  have h2 : (c :: t) = [c] ++ t := rfl
  rw [h2, getLastD_append_ne ht, getLastD_irrel ht d ' ']
  exact h

theorem joinNL_getLastD_notspace {a : List Char} {b : List (List Char)}
    (hb : pySpace ((joinNL b).getLastD ' ') = false) (hbne : b ≠ []) :
    pySpace ((joinNL (a :: b)).getLastD ' ') = false := by
  have hjb : joinNL b ≠ [] := by
    intro h
    rw [h] at hb
    exact absurd hb (by decide)
  rw [joinNL_cons hbne, getLastD_append_ne (by simp)]
  exact getLastD_cons_notspace hb hjb ' '

theorem detectLoop_cons (line : List Char) (rest : List (List Char)) (i c : Bool) :
    detectLoop (line :: rest) i c =
      (if (pyStrip line).isEmpty || hashKw.isPrefixOf (pyStrip line) then
        detectLoop rest i c
      else if defKw.isPrefixOf (pyStrip line) then detectLoop rest true c
      else if classKw.isPrefixOf (pyStrip line) then detectLoop rest i true
      else if (i || c) && !(!line.isEmpty && !pySpace (line.headD ' ')) then
        detectLoop rest i c
      else if !(importKw.isPrefixOf (pyStrip line)) && !(fromKw.isPrefixOf (pyStrip line)) &&
          !(defKw.isPrefixOf (pyStrip line)) && !(classKw.isPrefixOf (pyStrip line)) then
        true
      else detectLoop rest false false) := rfl

theorem pyStrip_kw_line {kw rest : List Char} (hkw : kw ≠ [])
    (hh : pySpace (kw.headD ' ') = false)
    (hrest : rest ≠ []) (hlast : pySpace (rest.getLastD ' ') = false) :
    pyStrip (kw ++ rest) = kw ++ rest := by
  refine pyStrip_eq_self ?_ ?_ ?_
  · cases kw with
    | nil => exact absurd rfl hkw
    | cons a t => simp
  · rw [headD_append_ne hkw]
    exact hh
  · rw [getLastD_append_ne hrest]
    exact hlast

theorem kwPfx_false {p : List Char} {c : Char} (t : List Char) (hp : p ≠ [])
    (h : p.headD c ≠ c) : p.isPrefixOf (c :: t) = false :=
  Bool.eq_false_iff.mpr (fun hx => not_pfx_head hp h (pfxIff.mp hx))

theorem isPrefixOf_append_self (kw t : List Char) : kw.isPrefixOf (kw ++ t) = true :=
  pfxIff.mpr ⟨t, rfl⟩

theorem cleanLine_parts {l : List Char} (h : cleanLine l = true) :
    l ≠ [] ∧ pySpace (l.headD ' ') = false ∧ pySpace (l.getLastD ' ') = false := by
  rw [cleanLine] at h
  simp only [Bool.and_eq_true, Bool.not_eq_true'] at h
  refine ⟨?_, h.1.2, h.2⟩
  intro hl
  rw [hl] at h
  simpa using h.1.1

theorem pyStrip_of_clean {l : List Char} (h : cleanLine l = true) : pyStrip l = l := by
  obtain ⟨h1, h2, h3⟩ := cleanLine_parts h
  exact pyStrip_eq_self h1 h2 h3

theorem detectLoop_import_line {rest2 : List Char} (hne : rest2 ≠ [])
    (hlast : pySpace (rest2.getLastD ' ') = false) (rest : List (List Char)) (i c : Bool) :
    detectLoop ((importKw ++ rest2) :: rest) i c = detectLoop rest false false := by
  have hstr : pyStrip (importKw ++ rest2) = importKw ++ rest2 :=
    pyStrip_kw_line (by decide) (by decide) hne hlast
  have hcons : importKw ++ rest2 = 'i' :: (("mport ").toList ++ rest2) := rfl
  rw [detectLoop_cons, hstr]
  rw [if_neg (by rw [hcons, kwPfx_false _ (by decide) (by decide)]; simp)]
  rw [if_neg (by rw [hcons, kwPfx_false _ (by decide) (by decide)]; exact Bool.false_ne_true)]
  rw [if_neg (by rw [hcons, kwPfx_false _ (by decide) (by decide)]; exact Bool.false_ne_true)]
  rw [if_neg (by rw [hcons]; simp [pySpace])]
  rw [if_neg (by rw [isPrefixOf_append_self]; simp)]

theorem detectLoop_from_line {rest2 : List Char} (hne : rest2 ≠ [])
    (hlast : pySpace (rest2.getLastD ' ') = false) (rest : List (List Char)) (i c : Bool) :
    detectLoop ((fromKw ++ rest2) :: rest) i c = detectLoop rest false false := by
  have hstr : pyStrip (fromKw ++ rest2) = fromKw ++ rest2 :=
    pyStrip_kw_line (by decide) (by decide) hne hlast
  have hcons : fromKw ++ rest2 = 'f' :: (("rom ").toList ++ rest2) := rfl
  rw [detectLoop_cons, hstr]
  rw [if_neg (by rw [hcons, kwPfx_false _ (by decide) (by decide)]; simp)]
  rw [if_neg (by rw [hcons, kwPfx_false _ (by decide) (by decide)]; exact Bool.false_ne_true)]
  rw [if_neg (by rw [hcons, kwPfx_false _ (by decide) (by decide)]; exact Bool.false_ne_true)]
  rw [if_neg (by rw [hcons]; simp [pySpace])]
  rw [if_neg (by rw [isPrefixOf_append_self, hcons, kwPfx_false _ (by decide) (by decide)]; simp)]

theorem append_ne_nil_right {a b : List Char} (hb : b ≠ []) : a ++ b ≠ [] := by
  intro h
  rcases List.append_eq_nil.mp h with ⟨_, h2⟩
  exact hb h2

theorem detectLoop_def_header (name : List Char) (rest : List (List Char)) (i c : Bool) :
    detectLoop ((defKw ++ name ++ ("():").toList) :: rest) i c = detectLoop rest true c := by
  have hassoc : defKw ++ name ++ ("():").toList = defKw ++ (name ++ ("():").toList) :=
    List.append_assoc _ _ _
  have hlast : pySpace ((name ++ ("():").toList).getLastD ' ') = false := by
    rw [getLastD_append_ne (by decide)]
    decide
  have hstr : pyStrip (defKw ++ (name ++ ("():").toList)) =
      defKw ++ (name ++ ("():").toList) :=
    pyStrip_kw_line (by decide) (by decide) (append_ne_nil_right (by decide)) hlast
  have hcons : defKw ++ (name ++ ("():").toList) =
      'd' :: (("ef ").toList ++ (name ++ ("():").toList)) := rfl
  rw [detectLoop_cons, hassoc, hstr]
  rw [if_neg (by rw [hcons, kwPfx_false _ (by decide) (by decide)]; simp)]
  rw [if_pos (isPrefixOf_append_self _ _)]

theorem detectLoop_class_header (name : List Char) (rest : List (List Char)) (i c : Bool) :
    detectLoop ((classKw ++ name ++ (":").toList) :: rest) i c = detectLoop rest i true := by
  have hassoc : classKw ++ name ++ (":").toList = classKw ++ (name ++ (":").toList) :=
    List.append_assoc _ _ _
  have hlast : pySpace ((name ++ (":").toList).getLastD ' ') = false := by
    rw [getLastD_append_ne (by decide)]
    decide
  have hstr : pyStrip (classKw ++ (name ++ (":").toList)) =
      classKw ++ (name ++ (":").toList) :=
    pyStrip_kw_line (by decide) (by decide) (append_ne_nil_right (by decide)) hlast
  have hcons : classKw ++ (name ++ (":").toList) =
      'c' :: (("lass ").toList ++ (name ++ (":").toList)) := rfl
  rw [detectLoop_cons, hassoc, hstr]
  rw [if_neg (by rw [hcons, kwPfx_false _ (by decide) (by decide)]; simp)]
  rw [if_neg (by rw [hcons, kwPfx_false _ (by decide) (by decide)]; exact Bool.false_ne_true)]
  rw [if_pos (isPrefixOf_append_self _ _)]

theorem detectLoop_guard_line (rest : List (List Char)) (i c : Bool) :
    detectLoop (guardLine :: rest) i c = true := by
  have hstr : pyStrip guardLine = guardLine := by decide
  have h4 : (!guardLine.isEmpty && !pySpace (guardLine.headD ' ')) = true := by decide
  rw [detectLoop_cons, hstr]
  rw [if_neg (by decide), if_neg (by decide), if_neg (by decide),
    if_neg (by rw [h4]; simp), if_pos (by decide)]

theorem detectLoop_expr_line {l : List Char} (hcl : cleanLine l = true)
    (hh : hashKw.isPrefixOf l = false) (hi : importKw.isPrefixOf l = false)
    (hf : fromKw.isPrefixOf l = false) (hd : defKw.isPrefixOf l = false)
    (hc : classKw.isPrefixOf l = false) (rest : List (List Char)) (i c : Bool) :
    detectLoop (l :: rest) i c = true := by
  obtain ⟨hne, hhead, _⟩ := cleanLine_parts hcl
  have hstr : pyStrip l = l := pyStrip_of_clean hcl
  have hne2 : l.isEmpty = false := by
    cases l with
    | nil => exact absurd rfl hne
    | cons a t => rfl
  rw [detectLoop_cons, hstr]
  rw [if_neg (by rw [hh, hne2]; simp)]
  rw [if_neg (by rw [hd]; exact Bool.false_ne_true)]
  rw [if_neg (by rw [hc]; exact Bool.false_ne_true)]
  rw [if_neg (by rw [hne2, hhead]; simp)]
  rw [if_pos (by rw [hi, hf, hd, hc]; rfl)]

theorem detectLoop_body_line {b : List Char} (rest : List (List Char)) {i c : Bool}
    (h : (i || c) = true) :
    ∃ i2 c2, detectLoop ((indentKw ++ b) :: rest) i c = detectLoop rest i2 c2 ∧
      (i2 || c2) = true := by
  rw [detectLoop_cons]
  by_cases h1 : ((pyStrip (indentKw ++ b)).isEmpty ||
      hashKw.isPrefixOf (pyStrip (indentKw ++ b))) = true
  · rw [if_pos h1]
    exact ⟨i, c, rfl, h⟩
  · rw [if_neg h1]
    by_cases h2 : defKw.isPrefixOf (pyStrip (indentKw ++ b)) = true
    · rw [if_pos h2]
      exact ⟨true, c, rfl, by simp⟩
    · rw [if_neg h2]
      by_cases h3 : classKw.isPrefixOf (pyStrip (indentKw ++ b)) = true
      · rw [if_pos h3]
        exact ⟨i, true, rfl, by simp⟩
      · rw [if_neg h3]
        have h4 : ((i || c) && !(!(indentKw ++ b).isEmpty &&
            !pySpace ((indentKw ++ b).headD ' '))) = true := by
          rw [h]
          rfl
        rw [if_pos h4]
        exact ⟨i, c, rfl, h⟩

theorem detectLoop_body {body : List (List Char)} :
    ∀ (rest : List (List Char)) (i c : Bool), (i || c) = true →
      ∃ i2 c2, detectLoop (indentLines body ++ rest) i c = detectLoop rest i2 c2 ∧
        (i2 || c2) = true := by
  induction body with
  | nil =>
    intro rest i c h
    exact ⟨i, c, rfl, h⟩
  | cons b body ih =>
    intro rest i c h
    have hexp : indentLines (b :: body) ++ rest =
        (indentKw ++ b) :: (indentLines body ++ rest) := by
      simp [indentLines]
    rw [hexp]
    obtain ⟨i2, c2, he, h2⟩ := detectLoop_body_line (indentLines body ++ rest) h (b := b)
    obtain ⟨i3, c3, he2, h3⟩ := ih rest i2 c2 h2
    exact ⟨i3, c3, by rw [he, he2], h3⟩

theorem ne_nil_of_isEmpty_false {l : List Char} (h : l.isEmpty = false) : l ≠ [] := by
  cases l with
  | nil => simp at h
  | cons a t => simp

theorem not_mem_of_contains_false {l : List Char} {c : Char} (h : l.contains c = false) :
    c ∉ l := by
  intro hm
  have h2 : l.contains c = true := List.elem_iff.mpr hm
  rw [h] at h2
  exact Bool.false_ne_true h2

theorem stmtOK_imp_parts {rest2 : List Char} (h : stmtOK (PyStmt.imp rest2) = true) :
    rest2.contains '\n' = false ∧ rest2 ≠ [] ∧ pySpace (rest2.getLastD ' ') = false := by
  rw [stmtOK, noNL] at h
  simp only [Bool.and_eq_true, Bool.not_eq_true'] at h
  exact ⟨h.1.1, ne_nil_of_isEmpty_false h.1.2, h.2⟩

theorem stmtOK_frm_parts {rest2 : List Char} (h : stmtOK (PyStmt.frm rest2) = true) :
    rest2.contains '\n' = false ∧ rest2 ≠ [] ∧ pySpace (rest2.getLastD ' ') = false := by
  rw [stmtOK, noNL] at h
  simp only [Bool.and_eq_true, Bool.not_eq_true'] at h
  exact ⟨h.1.1, ne_nil_of_isEmpty_false h.1.2, h.2⟩

theorem bodyLineOK_parts {b : List Char} (h : bodyLineOK b = true) :
    b.contains '\n' = false ∧ b ≠ [] ∧ pySpace (b.getLastD ' ') = false := by
  rw [bodyLineOK, noNL] at h
  simp only [Bool.and_eq_true, Bool.not_eq_true'] at h
  exact ⟨h.1.1, ne_nil_of_isEmpty_false h.1.2, h.2⟩

theorem detectLoop_render {stmts : List PyStmt} (hwf : wfModule stmts = true) :
    ∀ i c : Bool, detectLoop ((stmts.map stmtLines).flatten) i c =
      !(specFunctionBased stmts) := by
  induction stmts with
  | nil => intro i c; rfl
  | cons s stmts ih =>
    have hparts : stmtOK s = true ∧ wfModule stmts = true := by
      simpa [wfModule] using hwf
    have ih2 := ih hparts.2
    intro i c
    have hflat : (((s :: stmts).map stmtLines).flatten) =
        stmtLines s ++ ((stmts.map stmtLines).flatten) := by
      simp
    rw [hflat]
    cases s with
    | imp rest2 =>
      obtain ⟨_, hne, hlast⟩ := stmtOK_imp_parts hparts.1
      rw [show stmtLines (PyStmt.imp rest2) = [importKw ++ rest2] from rfl,
        List.singleton_append, detectLoop_import_line hne hlast, ih2]
      simp [specFunctionBased]
    | frm rest2 =>
      obtain ⟨_, hne, hlast⟩ := stmtOK_frm_parts hparts.1
      rw [show stmtLines (PyStmt.frm rest2) = [fromKw ++ rest2] from rfl,
        List.singleton_append, detectLoop_from_line hne hlast, ih2]
      simp [specFunctionBased]
    | frmCont rest2 cont =>
      exact absurd hparts.1 (by rw [stmtOK]; simp)
    | funcdef name body =>
      rw [show stmtLines (PyStmt.funcdef name body) =
          (defKw ++ name ++ ("():").toList) :: indentLines body from rfl,
        List.cons_append, detectLoop_def_header]
      obtain ⟨i2, c2, he, _⟩ :=
        detectLoop_body ((stmts.map stmtLines).flatten) true c (by simp)
      rw [he, ih2 i2 c2]
      simp [specFunctionBased]
    | classdef name body =>
      rw [show stmtLines (PyStmt.classdef name body) =
          (classKw ++ name ++ (":").toList) :: indentLines body from rfl,
        List.cons_append, detectLoop_class_header]
      obtain ⟨i2, c2, he, _⟩ :=
        detectLoop_body ((stmts.map stmtLines).flatten) i true (by simp)
      rw [he, ih2 i2 c2]
      simp [specFunctionBased]
    | guard body =>
      rw [show stmtLines (PyStmt.guard body) = guardLine :: indentLines body from rfl,
        List.cons_append, detectLoop_guard_line]
      simp [specFunctionBased]
    | exprStmt l =>
      have hp := hparts.1
      rw [stmtOK] at hp
      simp only [Bool.and_eq_true, Bool.not_eq_true'] at hp
      rw [show stmtLines (PyStmt.exprStmt l) = [l] from rfl, List.singleton_append,
        detectLoop_expr_line hp.1.1.1.1.1.2 hp.1.1.1.1.2 hp.1.1.1.2 hp.1.1.2 hp.1.2 hp.2]
      simp [specFunctionBased]

theorem stmtLines_ne_nil (s : PyStmt) : stmtLines s ≠ [] := by
  cases s <;> simp [stmtLines]

theorem indentLines_noNL {body : List (List Char)} (hb : body.all bodyLineOK = true)
    {l : List Char} (hl : l ∈ indentLines body) : '\n' ∉ l := by
  obtain ⟨b, hbm, rfl⟩ := List.mem_map.mp hl
  have hok := List.all_eq_true.mp hb b hbm
  obtain ⟨hnl, _, _⟩ := bodyLineOK_parts hok
  intro hm
  rcases List.mem_append.mp hm with h | h
  · revert h; decide
  · exact not_mem_of_contains_false hnl h

theorem stmt_noNL {s : PyStmt} (hs : stmtOK s = true) :
    ∀ l ∈ stmtLines s, '\n' ∉ l := by
  cases s with
  | imp rest2 =>
    obtain ⟨hnl, _, _⟩ := stmtOK_imp_parts hs
    intro l hl
    rw [stmtLines, List.mem_singleton] at hl
    subst hl
    intro hm
    rcases List.mem_append.mp hm with h | h
    · revert h; decide
    · exact not_mem_of_contains_false hnl h
  | frm rest2 =>
    obtain ⟨hnl, _, _⟩ := stmtOK_frm_parts hs
    intro l hl
    rw [stmtLines, List.mem_singleton] at hl
    subst hl
    intro hm
    rcases List.mem_append.mp hm with h | h
    · revert h; decide
    · exact not_mem_of_contains_false hnl h
  | frmCont rest2 cont => exact absurd hs (by rw [stmtOK]; simp)
  | funcdef name body =>
    have hp := hs
    rw [stmtOK, noNL] at hp
    simp only [Bool.and_eq_true, Bool.not_eq_true'] at hp
    intro l hl
    rcases List.mem_cons.mp hl with rfl | hl2
    · intro hm
      rcases List.mem_append.mp hm with h | h
      · rcases List.mem_append.mp h with h2 | h2
        · revert h2; decide
        · exact not_mem_of_contains_false hp.1 h2
      · revert h; decide
    · exact indentLines_noNL hp.2 hl2
  | classdef name body =>
    have hp := hs
    rw [stmtOK, noNL] at hp
    simp only [Bool.and_eq_true, Bool.not_eq_true'] at hp
    intro l hl
    rcases List.mem_cons.mp hl with rfl | hl2
    · intro hm
      rcases List.mem_append.mp hm with h | h
      · rcases List.mem_append.mp h with h2 | h2
        · revert h2; decide
        · exact not_mem_of_contains_false hp.1 h2
      · revert h; decide
    · exact indentLines_noNL hp.2 hl2
  | guard body =>
    have hp := hs
    rw [stmtOK] at hp
    intro l hl
    rcases List.mem_cons.mp hl with rfl | hl2
    · decide
    · exact indentLines_noNL hp hl2
  | exprStmt l =>
    have hp := hs
    rw [stmtOK, noNL] at hp
    simp only [Bool.and_eq_true, Bool.not_eq_true'] at hp
    intro l2 hl
    rw [stmtLines, List.mem_singleton] at hl
    subst hl
    exact not_mem_of_contains_false hp.1.1.1.1.1.1 

theorem flatten_noNL {stmts : List PyStmt} (hwf : wfModule stmts = true) :
    ∀ l ∈ ((stmts.map stmtLines).flatten), '\n' ∉ l := by
  induction stmts with
  | nil => simp
  | cons s stmts ih =>
    have hparts : stmtOK s = true ∧ wfModule stmts = true := by
      simpa [wfModule] using hwf
    intro l hl
    rw [show (((s :: stmts).map stmtLines).flatten) =
        stmtLines s ++ ((stmts.map stmtLines).flatten) from by simp] at hl
    rcases List.mem_append.mp hl with h | h
    · exact stmt_noNL hparts.1 l h
    · exact ih hparts.2 l h

theorem stmt_head_ok {s : PyStmt} (hs : stmtOK s = true) :
    ∃ l0 ls, stmtLines s = l0 :: ls ∧ l0 ≠ [] ∧ pySpace (l0.headD ' ') = false := by
  cases s with
  | imp rest2 =>
    have hc : importKw ++ rest2 = 'i' :: (("mport ").toList ++ rest2) := rfl
    exact ⟨importKw ++ rest2, [], rfl, by rw [hc]; simp, by rw [hc]; rfl⟩
  | frm rest2 =>
    have hc : fromKw ++ rest2 = 'f' :: (("rom ").toList ++ rest2) := rfl
    exact ⟨fromKw ++ rest2, [], rfl, by rw [hc]; simp, by rw [hc]; rfl⟩
  | frmCont rest2 cont => exact absurd hs (by rw [stmtOK]; simp)
  | funcdef name body =>
    have hc : defKw ++ name ++ ("():").toList =
        'd' :: (("ef ").toList ++ (name ++ ("():").toList)) := by
      rw [List.append_assoc]
      rfl
    exact ⟨defKw ++ name ++ ("():").toList, indentLines body, rfl,
      by rw [hc]; simp, by rw [hc]; rfl⟩
  | classdef name body =>
    have hc : classKw ++ name ++ (":").toList =
        'c' :: (("lass ").toList ++ (name ++ (":").toList)) := by
      rw [List.append_assoc]
      rfl
    exact ⟨classKw ++ name ++ (":").toList, indentLines body, rfl,
      by rw [hc]; simp, by rw [hc]; rfl⟩
  | guard body =>
    exact ⟨guardLine, indentLines body, rfl, by decide, by decide⟩
  | exprStmt l =>
    have hp := hs
    rw [stmtOK] at hp
    simp only [Bool.and_eq_true] at hp
    obtain ⟨hne, hh, _⟩ := cleanLine_parts hp.1.1.1.1.1.2
    exact ⟨l, [], rfl, hne, hh⟩

theorem body_last_ok {body : List (List Char)} (hb : body.all bodyLineOK = true)
    (hne : body ≠ []) :
    pySpace ((joinNL (indentLines body)).getLastD ' ') = false := by
  induction body with
  | nil => exact absurd rfl hne
  | cons b body ih =>
    have hok := List.all_eq_true.mp hb b (List.mem_cons_self b body)
    obtain ⟨_, hbne, hlast⟩ := bodyLineOK_parts hok
    cases body with
    | nil =>
      show pySpace ((joinNL [indentKw ++ b]).getLastD ' ') = false
      rw [show joinNL [indentKw ++ b] = indentKw ++ b from rfl,
        getLastD_append_ne hbne]
      exact hlast
    | cons b2 body2 =>
      have hb2 : (b2 :: body2).all bodyLineOK = true := by
        simp only [List.all_cons, Bool.and_eq_true] at hb
        simp only [List.all_cons, Bool.and_eq_true]
        exact hb.2
      have ihr := ih hb2 (by simp)
      show pySpace ((joinNL ((indentKw ++ b) :: indentLines (b2 :: body2))).getLastD ' ') = false
      exact joinNL_getLastD_notspace ihr (by simp [indentLines])

theorem stmt_last_ok {s : PyStmt} (hs : stmtOK s = true) :
    pySpace ((joinNL (stmtLines s)).getLastD ' ') = false := by
  cases s with
  | imp rest2 =>
    obtain ⟨_, hne, hlast⟩ := stmtOK_imp_parts hs
    rw [show joinNL (stmtLines (PyStmt.imp rest2)) = importKw ++ rest2 from rfl,
      getLastD_append_ne hne]
    exact hlast
  | frm rest2 =>
    obtain ⟨_, hne, hlast⟩ := stmtOK_frm_parts hs
    rw [show joinNL (stmtLines (PyStmt.frm rest2)) = fromKw ++ rest2 from rfl,
      getLastD_append_ne hne]
    exact hlast
  | frmCont rest2 cont => exact absurd hs (by rw [stmtOK]; simp)
  | funcdef name body =>
    have hp := hs
    rw [stmtOK] at hp
    simp only [Bool.and_eq_true] at hp
    cases body with
    | nil =>
      rw [show joinNL (stmtLines (PyStmt.funcdef name [])) =
          defKw ++ name ++ ("():").toList from rfl, List.append_assoc,
        getLastD_append_ne (append_ne_nil_right (by decide)),
        getLastD_append_ne (by decide)]
      decide
    | cons b body2 =>
      rw [show stmtLines (PyStmt.funcdef name (b :: body2)) =
          (defKw ++ name ++ ("():").toList) :: indentLines (b :: body2) from rfl]
      exact joinNL_getLastD_notspace (body_last_ok hp.2 (by simp)) (by simp [indentLines])
  | classdef name body =>
    have hp := hs
    rw [stmtOK] at hp
    simp only [Bool.and_eq_true] at hp
    cases body with
    | nil =>
      rw [show joinNL (stmtLines (PyStmt.classdef name [])) =
          classKw ++ name ++ (":").toList from rfl, List.append_assoc,
        getLastD_append_ne (append_ne_nil_right (by decide)),
        getLastD_append_ne (by decide)]
      decide
    | cons b body2 =>
      rw [show stmtLines (PyStmt.classdef name (b :: body2)) =
          (classKw ++ name ++ (":").toList) :: indentLines (b :: body2) from rfl]
      exact joinNL_getLastD_notspace (body_last_ok hp.2 (by simp)) (by simp [indentLines])
  | guard body =>
    have hp := hs
    rw [stmtOK] at hp
    cases body with
    | nil => decide
    | cons b body2 =>
      rw [show stmtLines (PyStmt.guard (b :: body2)) =
          guardLine :: indentLines (b :: body2) from rfl]
      exact joinNL_getLastD_notspace (body_last_ok hp (by simp)) (by simp [indentLines])
  | exprStmt l =>
    have hp := hs
    rw [stmtOK] at hp
    simp only [Bool.and_eq_true] at hp
    obtain ⟨_, _, hlast⟩ := cleanLine_parts hp.1.1.1.1.1.2
    exact hlast

theorem render_last_ok {stmts : List PyStmt} (hwf : wfModule stmts = true)
    (hne : stmts ≠ []) :
    pySpace ((joinNL ((stmts.map stmtLines).flatten)).getLastD ' ') = false := by
  induction stmts with
  | nil => exact absurd rfl hne
  | cons s stmts ih =>
    have hparts : stmtOK s = true ∧ wfModule stmts = true := by
      simpa [wfModule] using hwf
    cases stmts with
    | nil =>
      rw [show (([s].map stmtLines).flatten) = stmtLines s from by simp]
      exact stmt_last_ok hparts.1
    | cons s2 stmts2 =>
      have ihr := ih hparts.2 (by simp)
      have hflat : (((s :: s2 :: stmts2).map stmtLines).flatten) =
          stmtLines s ++ (((s2 :: stmts2).map stmtLines).flatten) := by
        simp
      have hfne : (((s2 :: stmts2).map stmtLines).flatten) ≠ [] := by
        obtain ⟨l0, ls, he, _, _⟩ := stmt_head_ok (by simpa [wfModule] using hparts.2 : stmtOK s2 = true ∧ wfModule stmts2 = true).1
        rw [show (((s2 :: stmts2).map stmtLines).flatten) =
            stmtLines s2 ++ ((stmts2.map stmtLines).flatten) from by simp, he]
        simp
      have hJne : joinNL (((s2 :: stmts2).map stmtLines).flatten) ≠ [] := by
        intro h
        rw [h] at ihr
        exact absurd ihr (by decide)
      rw [hflat, joinNL_append _ (stmtLines_ne_nil s) hfne,
        getLastD_append_ne (by simp)]
      exact getLastD_cons_notspace ihr hJne '\n'

theorem detect_render {stmts : List PyStmt} (hwf : wfModule stmts = true) :
    detectFunctionBasedSolution (renderModule stmts) = specFunctionBased stmts := by
  cases stmts with
  | nil => decide
  | cons s stmts =>
    have hparts : stmtOK s = true ∧ wfModule stmts = true := by
      simpa [wfModule] using hwf
    obtain ⟨l0, ls, hsl, hl0ne, hl0h⟩ := stmt_head_ok hparts.1
    have hflat : (((s :: stmts).map stmtLines).flatten) =
        stmtLines s ++ ((stmts.map stmtLines).flatten) := by
      simp
    have hcons : (((s :: stmts).map stmtLines).flatten) =
        l0 :: (ls ++ ((stmts.map stmtLines).flatten)) := by
      rw [hflat, hsl, List.cons_append]
    have hrend : renderModule (s :: stmts) = joinNL (((s :: stmts).map stmtLines).flatten) :=
      rfl
    have hhead : pySpace ((renderModule (s :: stmts)).headD ' ') = false := by
      rw [hrend, hcons, joinNL_headD hl0ne]
      exact hl0h
    have hlast : pySpace ((renderModule (s :: stmts)).getLastD ' ') = false :=
      render_last_ok hwf (by simp)
    have hne0 : renderModule (s :: stmts) ≠ [] := by
      intro h
      rw [h] at hhead
      exact absurd hhead (by decide)
    have hstrip : pyStrip (renderModule (s :: stmts)) = renderModule (s :: stmts) :=
      pyStrip_eq_self hne0 hhead hlast
    rw [detectFunctionBasedSolution, hstrip, hrend,
      splitNL_joinNL (by rw [hcons]; simp) (flatten_noNL hwf),
      detectLoop_render hwf false false, Bool.not_not]

/-- Claim C9, amended: the detection heuristic is line-based, not
statement-based.  On modules whose top-level statements render one physical
line each (single-line imports, undecorated definitions with indented bodies,
guard blocks, other single-line statements — `wfModule`), it agrees exactly
with the spec's statement-level rule: function-based iff every top-level
statement is an import or a definition; in particular an `if __name__` guard
block is not special-cased and makes the candidate self-driving.  A top-level
statement spanning several physical lines (a parenthesised import
continuation, `PyStmt.frmCont`) breaks the equivalence — see the
counterexample.  A function-based candidate whose extracted first-function
name is nonempty (the source's `if main_func:`, falsy on the empty string)
is wrapped by appending the generated `_run_solution` text, which calls the
first defined function and prints its result when it is not None
(conjunct 2). -/
theorem c9_detection_heuristic :
    (∀ stmts : List PyStmt, wfModule stmts = true →
      detectFunctionBasedSolution (renderModule stmts) = specFunctionBased stmts) ∧
    (∀ llmCode mainFunc : List Char, detectFunctionBasedSolution llmCode = true →
      extractMainFunctionName llmCode = some mainFunc → mainFunc ≠ [] →
      assembleAppsSolution llmCode = llmCode ++ wrapperText mainFunc) := by
  refine ⟨fun stmts hwf => detect_render hwf, ?_⟩
  intro code m hd hm hne
  rw [assembleAppsSolution, if_pos hd, hm]
  show (if m.isEmpty then code else code ++ wrapperText m) = code ++ wrapperText m
  rw [if_neg]
  intro hemp
  exact hne (List.isEmpty_iff.mp hemp)

/-- Claim C9, counterexample: a module of exactly two top-level statements —
a parenthesised from-import continuing on a second physical line, and a
function definition — is function-based under the claim's statement-level
rule, but the source's line-based scan treats the continuation line
`    sqrt)` as top-level executable code and classifies it self-driving. -/
theorem c9_counterexample :
    specFunctionBased
      [PyStmt.frmCont (("math import (").toList) [("    sqrt)").toList],
       PyStmt.funcdef (("f").toList) [("return 1").toList]] = true ∧
    detectFunctionBasedSolution (renderModule
      [PyStmt.frmCont (("math import (").toList) [("    sqrt)").toList],
       PyStmt.funcdef (("f").toList) [("return 1").toList]]) = false := by
  refine ⟨?_, ?_⟩ <;> decide

theorem c9_witness :
    detectFunctionBasedSolution (renderModule
      [PyStmt.imp (("os").toList), PyStmt.funcdef (("f").toList) [("return 1").toList],
       PyStmt.guard [("main()").toList]]) =
    specFunctionBased
      [PyStmt.imp (("os").toList), PyStmt.funcdef (("f").toList) [("return 1").toList],
       PyStmt.guard [("main()").toList]] ∧
    assembleAppsSolution (("def f():\n    return 1").toList) =
      (("def f():\n    return 1").toList) ++ wrapperText (("f").toList) :=
  ⟨c9_detection_heuristic.1 _ (by decide),
   c9_detection_heuristic.2 _ _ (by decide) (by decide) (by decide)⟩
